import Mathlib

/-!
Verification development for the k2think-2api stream-translation engine.

The repository contains three near-identical implementations of the same
engine: src/app.js (Express handler handleK2Stream), and two variants
concatenated in src/src/index.js (an Express/Readable variant createK2Stream,
and an http-server variant, also named createK2Stream).  The pure helpers
extractReasoningAndAnswer, calculateDeltaContent and extractContentFromJson
are textually identical in all three; they are embedded once below.

Strings are modelled as List Char (JS strings; code points stand in for
UTF-16 units, which agree on the inputs considered here).  JSON values are
modelled by the inductive JsonVal; the outcome of JSON.parse on an event
line payload is modelled by the Payload type (parsed carries the raw text
alongside the parsed value, because the catch-handler falls back to the raw
text).  JS truthiness is the function truthy.
-/

/-- Model of a JSON value as produced by JSON.parse: null, booleans, numbers
(JSON numbers modelled as Int; the claims never exercise fractional values),
strings, arrays and objects.  Object field lists have pairwise distinct keys,
as JSON.parse guarantees. -/
inductive JsonVal where
  | jnull
  | jbool (b : Bool)
  | jnum (n : Int)
  | jstr (s : List Char)
  | jarr (elems : List JsonVal)
  | jobj (fields : List (List Char × JsonVal))

/-- JS truthiness of a value: null, false, 0 and the empty string are falsy;
every array and object (including empty ones) is truthy. -/
def truthy : JsonVal → Bool
  | JsonVal.jnull => false
  | JsonVal.jbool b => b
  | JsonVal.jnum n => n != 0
  | JsonVal.jstr s => !s.isEmpty
  | JsonVal.jarr _ => true
  | JsonVal.jobj _ => true

/-- Property lookup on an object field list (first match; keys are distinct). -/
def lookupField : List (List Char × JsonVal) → List Char → Option JsonVal
  | [], _ => none
  | (k, v) :: rest, key => if k = key then some v else lookupField rest key

/-- JS property access obj.key: none models undefined.  Only plain objects
carry the data properties probed by the code; property access on arrays,
strings, numbers and booleans yields undefined for these keys. -/
def getField : JsonVal → List Char → Option JsonVal
  | JsonVal.jobj fields, key => lookupField fields key
  | _, _ => none

/-- JS truthiness of a possibly-undefined value (undefined is falsy). -/
def truthyOpt : Option JsonVal → Bool
  | some v => truthy v
  | none => false

/-- Evaluation of the pattern (x || dflt) on a possibly-undefined value. -/
def jsOrElse (v : Option JsonVal) (dflt : JsonVal) : JsonVal :=
  match v with
  | some x => if truthy x then x else dflt
  | none => dflt

/-- Test typeof v === "object" && v !== null: true exactly for objects and
arrays. -/
def isObjectLike : JsonVal → Bool
  | JsonVal.jobj _ => true
  | JsonVal.jarr _ => true
  | _ => false

/-- Whitespace class of JS String.prototype.trim (WhiteSpace and
LineTerminator code points). -/
def isJsWs (c : Char) : Bool :=
  let n := c.toNat
  n = 0x9 || n = 0xA || n = 0xB || n = 0xC || n = 0xD || n = 0x20 ||
  n = 0xA0 || n = 0x1680 || (0x2000 ≤ n && n ≤ 0x200A) ||
  n = 0x2028 || n = 0x2029 || n = 0x202F || n = 0x205F || n = 0x3000 || n = 0xFEFF

/-- Model of JS String.prototype.trim: drop leading and trailing whitespace. -/
def jsTrim (s : List Char) : List Char :=
  ((s.dropWhile isJsWs).reverse.dropWhile isJsWs).reverse

/-- Index of the first occurrence of needle in hay, if any.  This models the
leftmost-match search of the JS regex engine for a literal. -/
def findSub (needle : List Char) : List Char → Option Nat
  | [] => if needle.isPrefixOf [] then some 0 else none
  | c :: t =>
    if needle.isPrefixOf (c :: t) then some 0
    else (findSub needle t).map (· + 1)

def detailsOpenTag : List Char := "<details type=\"reasoning\"".toList
def summaryOpenTag : List Char := "<summary>".toList
def summaryCloseTag : List Char := "</summary>".toList
def detailsCloseTag : List Char := "</details>".toList
def answerOpenTag : List Char := "<answer>".toList
def answerCloseTag : List Char := "</answer>".toList

/-- Capture group of the reasoning regex
<details type="reasoning"[^>]*>.*?<summary>.*?</summary>(.*?)</details> with
the s flag, evaluated with JS leftmost-match semantics.  Because every
quantifier here either stops at the first possible position (lazy .*?) or is
bounded by the first ">" ([^>]*>), the match decomposes into successive
first-occurrence searches; if any search fails there is no match at any later
start position either, so the regex fails to match. -/
def findReasoningCapture (s : List Char) : Option (List Char) :=
  (findSub detailsOpenTag s).bind (fun p =>
    let afterOpen := s.drop (p + detailsOpenTag.length)
    (findSub ['>'] afterOpen).bind (fun q =>
      let afterTag := afterOpen.drop (q + 1)
      (findSub summaryOpenTag afterTag).bind (fun r =>
        let afterSum := afterTag.drop (r + summaryOpenTag.length)
        (findSub summaryCloseTag afterSum).bind (fun t =>
          let body := afterSum.drop (t + summaryCloseTag.length)
          (findSub detailsCloseTag body).map (fun u => body.take u)))))

/-- Capture group of the answer regex <answer>(.*?)</answer> with the s flag:
text between the first "<answer>" and the first "</answer>" after it. -/
def findAnswerCapture (s : List Char) : Option (List Char) :=
  (findSub answerOpenTag s).bind (fun p =>
    let afterOpen := s.drop (p + answerOpenTag.length)
    (findSub answerCloseTag afterOpen).map (fun u => afterOpen.take u))

/-- Translation of extractReasoningAndAnswer (src/app.js lines 40-56,
identical in both src/src/index.js variants): a falsy content yields
("", ""); otherwise each section is the trimmed capture of its regex, or ""
when the regex does not match.  The surrounding try/catch never fires for
string inputs (String.prototype.match does not throw on them). -/
def extractReasoningAndAnswer (content : List Char) : List Char × List Char :=
  if content = [] then ([], [])
  else
    let reasoning :=
      match findReasoningCapture content with
      | some cap => jsTrim cap
      | none => []
    let answer :=
      match findAnswerCapture content with
      | some cap => jsTrim cap
      | none => []
    (reasoning, answer)

/-- Translation of calculateDeltaContent (src/app.js lines 59-68, identical
in both src/src/index.js variants): a falsy previous returns current whole, a
falsy current returns "", otherwise current.substring(previous.length), which
clamps to "" when previous is at least as long as current.  The try/catch
never fires (String.prototype.substring does not throw). -/
def calculateDeltaContent (previous current : List Char) : List Char :=
  if previous = [] then current
  else if current = [] then []
  else current.drop previous.length

def usageKey : List Char := "usage".toList
def doneKey : List Char := "done".toList
def choicesKey : List Char := "choices".toList
def deltaKey : List Char := "delta".toList
def roleKey : List Char := "role".toList
def contentKey : List Char := "content".toList

/-- Result of the payload decoder: either the normalized tuple
(contentPiece, isDone, usage, role) of the source, or raised, modelling the
TypeError thrown by obj.choices[0].delta when choices[0] is null (the only
way the function can throw on JSON.parse output). -/
inductive DecodeOutcome where
  | ok (piece : JsonVal) (isDone : Bool) (usage : JsonVal) (role : JsonVal)
  | raised

/-- Test obj.done === true on a possibly-undefined value. -/
def isDoneTrue : Option JsonVal → Bool
  | some (JsonVal.jbool true) => true
  | _ => false

/-- Translation of extractContentFromJson (src/app.js lines 71-87, identical
in both src/src/index.js variants).  Sequential property probing with JS
truthiness; undefined results are modelled as jnull where the source returns
obj.usage for an absent field. -/
def extractContentFromJson (v : JsonVal) : DecodeOutcome :=
  if isObjectLike v then
    if truthyOpt (getField v usageKey) then
      DecodeOutcome.ok (JsonVal.jstr []) false ((getField v usageKey).getD JsonVal.jnull) JsonVal.jnull
    else if isDoneTrue (getField v doneKey) then
      DecodeOutcome.ok (JsonVal.jstr []) true ((getField v usageKey).getD JsonVal.jnull) JsonVal.jnull
    else
      match getField v choicesKey with
      | some (JsonVal.jarr (c0 :: _)) =>
        match c0 with
        | JsonVal.jnull => DecodeOutcome.raised
        | _ =>
          let deltaV := jsOrElse (getField c0 deltaKey) (JsonVal.jobj [])
          let role := jsOrElse (getField deltaV roleKey) JsonVal.jnull
          let piece := jsOrElse (getField deltaV contentKey) (JsonVal.jstr [])
          DecodeOutcome.ok piece false JsonVal.jnull role
      | _ =>
        match getField v contentKey with
        | some (JsonVal.jstr s) => DecodeOutcome.ok (JsonVal.jstr s) false JsonVal.jnull JsonVal.jnull
        | _ => DecodeOutcome.ok (JsonVal.jstr []) false JsonVal.jnull JsonVal.jnull
  else DecodeOutcome.ok (JsonVal.jstr []) false JsonVal.jnull JsonVal.jnull

/-- Outcome of JSON.parse on one kept data-line payload: parsed carries the
raw payload text together with the parsed value; unparsed models a payload on
which JSON.parse throws. -/
inductive Payload where
  | parsed (raw : List Char) (v : JsonVal)
  | unparsed (raw : List Char)

/-- The try/catch around JSON.parse and extractContentFromJson in the line
loop (src/app.js lines 161-169): a parse failure, or a TypeError raised
inside extractContentFromJson, leaves contentPiece equal to the raw payload
text and isDone unassigned (false). -/
def decodePayloadPiece : Payload → JsonVal × Bool
  | Payload.unparsed raw => (JsonVal.jstr raw, false)
  | Payload.parsed raw v =>
    match extractContentFromJson v with
    | DecodeOutcome.ok piece isDone _ _ => (piece, isDone)
    | DecodeOutcome.raised => (JsonVal.jstr raw, false)

/-- Events emitted by the streaming translation, in emission order. -/
inductive DeltaEvent where
  | roleAnnounce
  | reasoningDelta (text : List Char)
  | answerDelta (text : List Char)
  | stop
  | done
  deriving DecidableEq

/-- Per-request mutable state of handleK2Stream (src/app.js lines 112-115). -/
structure EngineState where
  previousReasoning : List Char
  previousAnswer : List Char
  reasoningPhase : Bool
  deriving DecidableEq

def initState : EngineState :=
  { previousReasoning := [], previousAnswer := [], reasoningPhase := true }

/-- First block of the snapshot update (src/app.js lines 175-181): while in
the reasoning phase with a non-empty reasoning section, emit the suffix delta
when it trims non-empty and advance previousReasoning. -/
def stepReason (st : EngineState) (currentReasoning : List Char) :
    EngineState × List DeltaEvent :=
  if st.reasoningPhase = true ∧ currentReasoning ≠ [] then
    let d := calculateDeltaContent st.previousReasoning currentReasoning
    if jsTrim d ≠ [] then
      ({ st with previousReasoning := currentReasoning }, [DeltaEvent.reasoningDelta d])
    else (st, [])
  else (st, [])

/-- Second block (src/app.js lines 183-191): on the first non-empty answer,
leave the reasoning phase; flush a residual reasoning delta if the current
reasoning differs from the tracked one, without updating previousReasoning. -/
def stepFlush (st : EngineState) (currentReasoning currentAnswer : List Char) :
    EngineState × List DeltaEvent :=
  if currentAnswer ≠ [] ∧ st.reasoningPhase = true then
    let st2 := { st with reasoningPhase := false }
    if currentReasoning ≠ [] ∧ currentReasoning ≠ st2.previousReasoning then
      let d := calculateDeltaContent st2.previousReasoning currentReasoning
      if jsTrim d ≠ [] then (st2, [DeltaEvent.reasoningDelta d]) else (st2, [])
    else (st2, [])
  else (st, [])

/-- Third block (src/app.js lines 193-199): in the answering phase with a
non-empty answer, emit the suffix delta when it trims non-empty and advance
previousAnswer. -/
def stepAnswer (st : EngineState) (currentAnswer : List Char) :
    EngineState × List DeltaEvent :=
  if st.reasoningPhase = false ∧ currentAnswer ≠ [] then
    let d := calculateDeltaContent st.previousAnswer currentAnswer
    if jsTrim d ≠ [] then
      ({ st with previousAnswer := currentAnswer }, [DeltaEvent.answerDelta d])
    else (st, [])
  else (st, [])

/-- One snapshot update on already-extracted sections: the three blocks of
src/app.js lines 175-199 run in order on the same snapshot. -/
def engineStep (st : EngineState) (currentReasoning currentAnswer : List Char) :
    EngineState × List DeltaEvent :=
  let p1 := stepReason st currentReasoning
  let p2 := stepFlush p1.1 currentReasoning currentAnswer
  let p3 := stepAnswer p2.1 currentAnswer
  (p3.1, p1.2 ++ p2.2 ++ p3.2)

/-- Sections the engine sees for one accumulated content value: for a string
it runs the extractor; for a non-string truthy value, String.prototype.match
raises inside the extractor's try, which its catch turns into ("", ""). -/
def snapshotSections : JsonVal → List Char × List Char
  | JsonVal.jstr s => extractReasoningAndAnswer s
  | _ => ([], [])

/-- The body of "if (contentPiece) { ... }" (src/app.js lines 171-200): a
falsy piece is skipped, a truthy one becomes the accumulated content and is
run through extraction and the three blocks. -/
def processContent (st : EngineState) (piece : JsonVal) :
    EngineState × List DeltaEvent :=
  if truthy piece = true then
    engineStep st (snapshotSections piece).1 (snapshotSections piece).2
  else (st, [])

/-- The engine fed a sequence of snapshot strings (each the contentPiece of
one upstream event), with state threaded through. -/
def runSnapshots : EngineState → List (List Char) → EngineState × List DeltaEvent
  | st, [] => (st, [])
  | st, s :: rest =>
    let step := processContent st (JsonVal.jstr s)
    let restRun := runSnapshots step.1 rest
    (restRun.1, step.2 ++ restRun.2)

/-- The per-transport-chunk line loop (src/app.js lines 153-201): payloads of
the kept data lines of one chunk are decoded and processed in order; a
payload decoding as terminal makes the data-callback return, abandoning the
remaining lines of this chunk only. -/
def processChunk : EngineState → List Payload → EngineState × List DeltaEvent
  | st, [] => (st, [])
  | st, p :: rest =>
    let d := decodePayloadPiece p
    if d.2 = true then (st, [])
    else
      let step := processContent st d.1
      let restRun := processChunk step.1 rest
      (restRun.1, step.2 ++ restRun.2)

/-- Successive data-callback invocations: each transport chunk runs the line
loop afresh on the state left by the previous chunk; no memory of a terminal
signal survives the callback return. -/
def runChunks : EngineState → List (List Payload) → EngineState × List DeltaEvent
  | st, [] => (st, [])
  | st, c :: cs =>
    let step := processChunk st c
    let restRun := runChunks step.1 cs
    (restRun.1, step.2 ++ restRun.2)

/-- The event sequence handleK2Stream emits for a successful upstream body
delivered as the given chunks of payloads: the initial role chunk (line 127),
the per-chunk deltas, then the stop chunk and the [DONE] sentinel written by
the end-handler (lines 204-209). -/
def handleK2StreamEvents (chunks : List (List Payload)) : List DeltaEvent :=
  DeltaEvent.roleAnnounce :: (runChunks initState chunks).2 ++ [DeltaEvent.stop, DeltaEvent.done]

/-- Null test used when joining array elements. -/
def isNullVal : JsonVal → Bool
  | JsonVal.jnull => true
  | _ => false

/-- Model of JS string coercion as applied by Array.prototype.join: strings
unchanged, numbers and booleans printed, null printed as "null" when coerced
directly (join itself maps a null element to ""), arrays joined with commas,
plain objects as "[object Object]". -/
def jsToString : JsonVal → List Char
  | JsonVal.jnull => "null".toList
  | JsonVal.jbool true => "true".toList
  | JsonVal.jbool false => "false".toList
  | JsonVal.jnum n => (toString n).toList
  | JsonVal.jstr s => s
  | JsonVal.jobj _ => "[object Object]".toList
  | JsonVal.jarr [] => []
  | JsonVal.jarr (x :: rest) =>
    (if isNullVal x then [] else jsToString x) ++
    (if rest.isEmpty then [] else ',' :: jsToString (JsonVal.jarr rest))
termination_by v => sizeOf v
decreasing_by
  all_goals simp_wf
  all_goals omega

/-- Piece collection of aggregateStream (src/app.js lines 231-252): terminal
payloads are skipped (continue, not return), truthy pieces are pushed. -/
def aggregatePieces : List Payload → List JsonVal
  | [] => []
  | p :: rest =>
    let d := decodePayloadPiece p
    if d.2 = true then aggregatePieces rest
    else if truthy d.1 = true then d.1 :: aggregatePieces rest
    else aggregatePieces rest

/-- Model of answerContent.replace(/\\n/g, "\n"): every literal
backslash-n pair becomes a newline, scanning left to right. -/
def replaceEscN : List Char → List Char
  | [] => []
  | '\\' :: 'n' :: rest => '\n' :: replaceEscN rest
  | c :: rest => c :: replaceEscN rest

/-- Translation of aggregateStream's end-handler (src/app.js lines 255-259):
join all collected pieces, extract once, return the answer with literal
backslash-n normalized to newlines. -/
def aggregateStream (ps : List Payload) : List Char :=
  let accumulatedContent := List.flatten ((aggregatePieces ps).map jsToString)
  replaceEscN (extractReasoningAndAnswer accumulatedContent).2

/-- Concatenation of the reasoning-delta payloads of an event sequence. -/
def concatReasoningDeltas : List DeltaEvent → List Char
  | [] => []
  | DeltaEvent.reasoningDelta t :: rest => t ++ concatReasoningDeltas rest
  | _ :: rest => concatReasoningDeltas rest

/-- Concatenation of the answer-delta payloads of an event sequence. -/
def concatAnswerDeltas : List DeltaEvent → List Char
  | [] => []
  | DeltaEvent.answerDelta t :: rest => t ++ concatAnswerDeltas rest
  | _ :: rest => concatAnswerDeltas rest

def isReasoningEv : DeltaEvent → Bool
  | DeltaEvent.reasoningDelta _ => true
  | _ => false

def isAnswerEv : DeltaEvent → Bool
  | DeltaEvent.answerDelta _ => true
  | _ => false

/-- Both sections of the second snapshot extend those of the first by
appending at the end (cumulative growth of spec section 8). -/
def GrowsTo (p q : List Char × List Char) : Prop :=
  p.1 <+: q.1 ∧ p.2 <+: q.2

/-- Extracted section pairs of a snapshot sequence. -/
def SectionsOf (snaps : List (List Char)) : List (List Char × List Char) :=
  snaps.map extractReasoningAndAnswer

/-- The reasoning section never changes after the step whose answer section
first becomes non-empty. -/
def ReasoningFrozen : List (List Char × List Char) → Prop
  | [] => True
  | p :: rest => (p.2 ≠ [] → ∀ q ∈ rest, q.1 = p.1) ∧ ReasoningFrozen rest

/-- A string equal to its own trim. -/
def Trimmed (s : List Char) : Prop := jsTrim s = s

/-- Decoder state of the WHATWG incremental UTF-8 decoder (the state behind
TextDecoder): pending code point bits, how many continuation bytes are still
needed and seen, and the valid range for the next continuation byte. -/
structure Utf8State where
  codepoint : Nat
  bytesNeeded : Nat
  bytesSeen : Nat
  lowerBoundary : Nat
  upperBoundary : Nat
  deriving DecidableEq

def utf8Init : Utf8State :=
  { codepoint := 0, bytesNeeded := 0, bytesSeen := 0,
    lowerBoundary := 0x80, upperBoundary := 0xBF }

def replChar : Char := Char.ofNat 0xFFFD

/-- One byte consumed with no sequence pending: ASCII is emitted, a lead byte
starts a sequence, anything else is an error replaced by U+FFFD. -/
def utf8Start (b : Nat) : Utf8State × List Char :=
  if b ≤ 0x7F then (utf8Init, [Char.ofNat b])
  else if 0xC2 ≤ b && b ≤ 0xDF then
    ({ utf8Init with codepoint := b % 32, bytesNeeded := 1 }, [])
  else if 0xE0 ≤ b && b ≤ 0xEF then
    ({ codepoint := b % 16, bytesNeeded := 2, bytesSeen := 0,
       lowerBoundary := if b = 0xE0 then 0xA0 else 0x80,
       upperBoundary := if b = 0xED then 0x9F else 0xBF }, [])
  else if 0xF0 ≤ b && b ≤ 0xF4 then
    ({ codepoint := b % 8, bytesNeeded := 3, bytesSeen := 0,
       lowerBoundary := if b = 0xF0 then 0x90 else 0x80,
       upperBoundary := if b = 0xF4 then 0x8F else 0xBF }, [])
  else (utf8Init, [replChar])

/-- One byte consumed in non-fatal mode: a continuation byte in range extends
or finishes the pending sequence; one out of range emits U+FFFD and is
reprocessed as a fresh byte (the WHATWG prepend step). -/
def utf8Step (st : Utf8State) (b : Nat) : Utf8State × List Char :=
  if st.bytesNeeded = 0 then utf8Start b
  else if st.lowerBoundary ≤ b && b ≤ st.upperBoundary then
    let cp := st.codepoint * 64 + b % 64
    let seen := st.bytesSeen + 1
    if seen = st.bytesNeeded then (utf8Init, [Char.ofNat cp])
    else ({ st with codepoint := cp, bytesSeen := seen }, [])
  else
    let fresh := utf8Start b
    (fresh.1, replChar :: fresh.2)

/-- Streaming decode of one chunk: the decoder state carries over, so a
sequence split across chunks survives (decoder.decode(chunk, stream true)). -/
def utf8DecodeChunk (st : Utf8State) (bytes : List Nat) : Utf8State × List Char :=
  bytes.foldl
    (fun acc b =>
      let step := utf8Step acc.1 b
      (step.1, acc.2 ++ step.2))
    (st, [])

/-- One-shot decode of a whole buffer (Buffer.prototype.toString): a sequence
still pending at the end of the buffer becomes U+FFFD. -/
def utf8DecodeWhole (bytes : List Nat) : List Char :=
  let run := utf8DecodeChunk utf8Init bytes
  run.2 ++ (if run.1.bytesNeeded = 0 then [] else [replChar])

/-- Split on every newline, JS String.prototype.split("\n"): n newlines give
n+1 parts (possibly empty). -/
def splitOnNl : List Char → List (List Char)
  | [] => [[]]
  | '\n' :: rest => [] :: splitOnNl rest
  | c :: rest =>
    match splitOnNl rest with
    | p :: ps => (c :: p) :: ps
    | [] => [[c]]

/-- Carry-over state of the frame splitter: the text decoder state and the
trailing incomplete line. -/
structure SplitterState where
  decSt : Utf8State
  buffer : List Char

/-- Frame splitter of src/app.js lines 144-151 (and the second
src/src/index.js variant, lines 660-670): stateful streaming decode, append
to the carry-over buffer, split on newline, keep the last fragment. -/
def splitterStreamStep (ss : SplitterState) (bytes : List Nat) :
    SplitterState × List (List Char) :=
  let dec := utf8DecodeChunk ss.decSt bytes
  let parts := splitOnNl (ss.buffer ++ dec.2)
  ({ decSt := dec.1, buffer := parts.getLastD [] }, parts.dropLast)

/-- All complete lines the streaming-decoder splitter yields over a chunked
byte stream. -/
def splitterStreamRun (chunks : List (List Nat)) : List (List Char) :=
  (chunks.foldl
    (fun acc c =>
      let step := splitterStreamStep acc.1 c
      (step.1, acc.2 ++ step.2))
    (({ decSt := utf8Init, buffer := [] } : SplitterState), [])).2

/-- Frame splitter of the first src/src/index.js variant (lines 160-164):
buffer += chunk.toString() decodes every chunk in isolation, so a multi-byte
character split across chunks is replaced, not decoded. -/
def splitterToStringStep (buffer : List Char) (bytes : List Nat) :
    List Char × List (List Char) :=
  let parts := splitOnNl (buffer ++ utf8DecodeWhole bytes)
  (parts.getLastD [], parts.dropLast)

/-- All complete lines the per-chunk toString splitter yields over a chunked
byte stream. -/
def splitterToStringRun (chunks : List (List Nat)) : List (List Char) :=
  (chunks.foldl
    (fun acc c =>
      let step := splitterToStringStep acc.1 c
      (step.1, acc.2 ++ step.2))
    (([] : List Char), ([] : List (List Char)))).2

/-- Outcome of the single upstream fetch: the fetch itself rejects, it
resolves with a non-success status, or it resolves with a body delivered as
chunks of kept data-line payloads. -/
inductive UpstreamOutcome where
  | fetchFailure
  | httpError (status : Nat)
  | ok (chunks : List (List Payload))

/-- Observable actions of the stream drivers, in program order. -/
inductive DriverAct where
  | writeFrame (e : DeltaEvent)
  | issueRequest
  | writeErrorData
  | endResponse
  | destroyStream
  deriving DecidableEq

/-- Action trace of handleK2Stream (src/app.js lines 109-222): the role chunk
is written at line 127 before the fetch at line 130; a non-success status or
a rejected fetch writes an error data frame on the open SSE response and ends
it; a successful body streams deltas then stop and the [DONE] sentinel. -/
def handleK2StreamTrace (outcome : UpstreamOutcome) : List DriverAct :=
  DriverAct.writeFrame DeltaEvent.roleAnnounce :: DriverAct.issueRequest ::
  (match outcome with
   | UpstreamOutcome.fetchFailure => [DriverAct.writeErrorData, DriverAct.endResponse]
   | UpstreamOutcome.httpError _ => [DriverAct.writeErrorData, DriverAct.endResponse]
   | UpstreamOutcome.ok chunks =>
     ((runChunks initState chunks).2.map DriverAct.writeFrame) ++
     [DriverAct.writeFrame DeltaEvent.stop, DriverAct.writeFrame DeltaEvent.done,
      DriverAct.endResponse])

/-- Action trace of createK2Stream, first src/src/index.js variant (lines
130-236): the role chunk is pushed at line 145 before the fetch at line 147;
a non-success status or a rejected fetch destroys the Readable with an Error
(no error data frame is written); a successful body streams deltas then stop
and the [DONE] sentinel and closes the stream. -/
def createK2StreamTrace (outcome : UpstreamOutcome) : List DriverAct :=
  DriverAct.writeFrame DeltaEvent.roleAnnounce :: DriverAct.issueRequest ::
  (match outcome with
   | UpstreamOutcome.fetchFailure => [DriverAct.destroyStream]
   | UpstreamOutcome.httpError _ => [DriverAct.destroyStream]
   | UpstreamOutcome.ok chunks =>
     ((runChunks initState chunks).2.map DriverAct.writeFrame) ++
     [DriverAct.writeFrame DeltaEvent.stop, DriverAct.writeFrame DeltaEvent.done,
      DriverAct.endResponse])

/-- First-match-wins combinator over an ordered list of extraction rules,
used to state the decoder contract of spec section 4.2. -/
def decoderRuleChain :
    List (JsonVal → Option DecodeOutcome) → JsonVal → DecodeOutcome → DecodeOutcome
  | [], _, dflt => dflt
  | r :: rs, v, dflt =>
    match r v with
    | some o => o
    | none => decoderRuleChain rs v dflt

/-- Rule 1 as the claim words it: an object with a usage field (present,
regardless of its value) yields empty content, non-terminal, the usage value,
no role. -/
def specUsageRulePresence (v : JsonVal) : Option DecodeOutcome :=
  match getField v usageKey with
  | some u => some (DecodeOutcome.ok (JsonVal.jstr []) false u JsonVal.jnull)
  | none => none

/-- Rule 1 under the JS presence test: the usage field must be truthy. -/
def specUsageRuleTruthy (v : JsonVal) : Option DecodeOutcome :=
  match getField v usageKey with
  | some u =>
    if truthy u = true then some (DecodeOutcome.ok (JsonVal.jstr []) false u JsonVal.jnull)
    else none
  | none => none

/-- Rule 2: done === true yields empty content, terminal, usage if present. -/
def specDoneRule (v : JsonVal) : Option DecodeOutcome :=
  if isDoneTrue (getField v doneKey) then
    some (DecodeOutcome.ok (JsonVal.jstr []) true ((getField v usageKey).getD JsonVal.jnull) JsonVal.jnull)
  else none

/-- Rule 3 as the claim words it: a non-empty choices array yields its first
element's delta content (default empty) and role (default absent),
unconditionally. -/
def specChoicesRuleTotal (v : JsonVal) : Option DecodeOutcome :=
  match getField v choicesKey with
  | some (JsonVal.jarr (c0 :: _)) =>
    let deltaV := jsOrElse (getField c0 deltaKey) (JsonVal.jobj [])
    some (DecodeOutcome.ok (jsOrElse (getField deltaV contentKey) (JsonVal.jstr []))
      false JsonVal.jnull (jsOrElse (getField deltaV roleKey) JsonVal.jnull))
  | _ => none

/-- Rule 3 amended: a null first element makes the decoder raise (property
access on null); otherwise as in the total rule. -/
def specChoicesRuleStrict (v : JsonVal) : Option DecodeOutcome :=
  match getField v choicesKey with
  | some (JsonVal.jarr (JsonVal.jnull :: _)) => some DecodeOutcome.raised
  | some (JsonVal.jarr (c0 :: _)) =>
    let deltaV := jsOrElse (getField c0 deltaKey) (JsonVal.jobj [])
    some (DecodeOutcome.ok (jsOrElse (getField deltaV contentKey) (JsonVal.jstr []))
      false JsonVal.jnull (jsOrElse (getField deltaV roleKey) JsonVal.jnull))
  | _ => none

/-- Rule 4: a top-level string content field is returned directly. -/
def specContentRule (v : JsonVal) : Option DecodeOutcome :=
  match getField v contentKey with
  | some (JsonVal.jstr s) => some (DecodeOutcome.ok (JsonVal.jstr s) false JsonVal.jnull JsonVal.jnull)
  | _ => none

def specDefaultOutcome : DecodeOutcome :=
  DecodeOutcome.ok (JsonVal.jstr []) false JsonVal.jnull JsonVal.jnull

/-- The decoder as claim C8 words it. -/
def decoderSpecClaim (v : JsonVal) : DecodeOutcome :=
  if isObjectLike v = true then
    decoderRuleChain
      [specUsageRulePresence, specDoneRule, specChoicesRuleTotal, specContentRule]
      v specDefaultOutcome
  else specDefaultOutcome

/-- The decoder contract amended: a usage field counts only when truthy (the
JS presence test), and a null first choices element raises instead of
yielding a default. -/
def decoderSpecAmended (v : JsonVal) : DecodeOutcome :=
  if isObjectLike v = true then
    decoderRuleChain
      [specUsageRuleTruthy, specDoneRule, specChoicesRuleStrict, specContentRule]
      v specDefaultOutcome
  else specDefaultOutcome

/-- Concrete inputs used by the counterexamples and witnesses below. -/
def donePayload : Payload :=
  Payload.parsed ("\x7b\"done\":true\x7d".toList)
    (JsonVal.jobj [( "done".toList, JsonVal.jbool true)])

def answerHiPayload : Payload :=
  Payload.unparsed ("<answer>hi</answer>".toList)

def c1chunksInput : List (List Payload) := [[donePayload], [answerHiPayload]]

def c2snap : List Char :=
  "<details type=\"reasoning\"><summary>x</summary>step1".toList

def c3pieceA : Payload := Payload.unparsed ("<answer>a</answer>".toList)
def c3pieceAB : Payload := Payload.unparsed ("<answer>ab</answer>".toList)
def c3input : List Payload := [c3pieceA, c3pieceAB]

def c4snap1 : List Char :=
  "<details type=\"reasoning\"><summary>x</summary>a</details><answer>hi</answer>".toList
def c4snap2 : List Char :=
  "<details type=\"reasoning\"><summary>x</summary>ab</details><answer>hi</answer>".toList

def c8cexInput : JsonVal :=
  JsonVal.jobj [( "choices".toList, JsonVal.jarr [JsonVal.jnull])]

def c9wholeBytes : List (List Nat) :=
  [[100, 97, 116, 97, 58, 32, 195, 169, 10]]
def c9splitBytes : List (List Nat) :=
  [[100, 97, 116, 97, 58, 32, 195], [169, 10]]

/-- Claim C5: for every pair (previous, current) the delta computation
returns the entire current value when previous is empty, the empty string
when current is empty, otherwise the suffix of current at offset
length previous; when current is shorter than previous the result is the
empty string. -/
theorem c5_delta_rule (previous current : List Char) :
    (previous = [] → calculateDeltaContent previous current = current) ∧
    (current = [] → calculateDeltaContent previous current = []) ∧
    (previous ≠ [] → current ≠ [] →
      calculateDeltaContent previous current = current.drop previous.length) ∧
    (current.length < previous.length → calculateDeltaContent previous current = []) := by
  refine ⟨?_, ?_, ?_, ?_⟩
  · intro h
    simp [calculateDeltaContent, h]
  · intro h
    subst h
    by_cases hp : previous = [] <;> simp [calculateDeltaContent, hp]
  · intro hp hc
    simp [calculateDeltaContent, hp, hc]
  · intro hlt
    by_cases hp : previous = []
    · subst hp
      simp at hlt
    · by_cases hc : current = []
      · simp [calculateDeltaContent, hp, hc]
      · simp only [calculateDeltaContent, hp, hc, if_false]
        exact List.drop_eq_nil_of_le (Nat.le_of_lt hlt)

/-- Witness for c5_delta_rule at concrete inputs. -/
theorem c5_witness :
    calculateDeltaContent [] ("ab".toList) = "ab".toList ∧
    calculateDeltaContent ("ab".toList) ("a".toList) = [] :=
  ⟨(c5_delta_rule [] ("ab".toList)).1 rfl,
   (c5_delta_rule ("ab".toList) ("a".toList)).2.2.2 (by decide)⟩

/-- Counterexample to claim C2: on the single snapshot whose reasoning block
is opened but not closed, the engine emits no ReasoningDelta at all (the
extractor requires the closing details tag), so it does not emit
ReasoningDelta "step1". -/
theorem c2_counterexample :
    (runSnapshots initState [c2snap]).2 ≠ [DeltaEvent.reasoningDelta ("step1".toList)] := by
  decide

/-- Claim C2 amended: on the single snapshot with an unclosed reasoning block
the extractor yields empty sections (a complete block is required), so the
engine emits no ReasoningDelta and no AnswerDelta. -/
theorem c2_open_reasoning_block :
    extractReasoningAndAnswer c2snap = ([], []) ∧
    (runSnapshots initState [c2snap]).2 = [] := by
  exact ⟨rfl, rfl⟩

/-- Claim C9 (the code-level divergence): for the byte stream of one data
line containing the two-byte character U+00E9, the streaming-decoder splitter
of src/app.js yields identical event lines whether or not the character is
split across transport chunks, while the per-chunk toString splitter of the
first src/src/index.js variant yields different (corrupted) lines when it is
split. -/
theorem c9_split_decoding :
    splitterStreamRun c9wholeBytes = splitterStreamRun c9splitBytes ∧
    splitterToStringRun c9wholeBytes ≠ splitterToStringRun c9splitBytes := by
  exact ⟨by decide, by decide⟩

/-- Counterexample to claim C10: on a non-success upstream status the
createK2Stream driver of src/src/index.js destroys the stream; no error data
frame is ever written to the already-started SSE stream. -/
theorem c10_counterexample :
    createK2StreamTrace (UpstreamOutcome.httpError 500) =
      [DriverAct.writeFrame DeltaEvent.roleAnnounce, DriverAct.issueRequest,
       DriverAct.destroyStream] ∧
    ¬ DriverAct.writeErrorData ∈ createK2StreamTrace (UpstreamOutcome.httpError 500) := by
  exact ⟨rfl, by decide⟩

/-- Claim C10 amended: in every driver the first frame written is the
RoleAnnounce chunk, emitted before the upstream request is issued; on a
non-success upstream status the app.js handler writes an error data frame on
the already-started SSE stream and ends it, while the src/src/index.js
createK2Stream variant destroys the stream without writing an error frame. -/
theorem c10_role_first :
    (∀ outcome, (handleK2StreamTrace outcome).take 2 =
      [DriverAct.writeFrame DeltaEvent.roleAnnounce, DriverAct.issueRequest]) ∧
    (∀ outcome, (createK2StreamTrace outcome).take 2 =
      [DriverAct.writeFrame DeltaEvent.roleAnnounce, DriverAct.issueRequest]) ∧
    (∀ status, handleK2StreamTrace (UpstreamOutcome.httpError status) =
      [DriverAct.writeFrame DeltaEvent.roleAnnounce, DriverAct.issueRequest,
       DriverAct.writeErrorData, DriverAct.endResponse]) ∧
    (∀ status, createK2StreamTrace (UpstreamOutcome.httpError status) =
      [DriverAct.writeFrame DeltaEvent.roleAnnounce, DriverAct.issueRequest,
       DriverAct.destroyStream]) :=
  ⟨fun _ => rfl, fun _ => rfl, fun _ => rfl, fun _ => rfl⟩

/-- Counterexample to claim C8: on the payload whose choices array has a null
first element, the decoder does not yield the rule-3 default tuple the claim
describes; it raises (obj.choices[0].delta is a property access on null). -/
theorem c8_counterexample :
    extractContentFromJson c8cexInput ≠ decoderSpecClaim c8cexInput := by
  intro h
  exact nomatch h

/-- Helper for claim C8: the source decoder equals the amended rule chain on
every JSON value. -/
theorem extract_eq_amended (v : JsonVal) : extractContentFromJson v = decoderSpecAmended v := by
  cases v with
  | jnull => rfl
  | jbool b => rfl
  | jnum n => rfl
  | jstr s => rfl
  | jarr elems => rfl
  | jobj fields =>
    show extractContentFromJson (JsonVal.jobj fields) = decoderSpecAmended (JsonVal.jobj fields)
    unfold extractContentFromJson decoderSpecAmended
    simp only [isObjectLike, if_true, decoderRuleChain, specUsageRuleTruthy, specDoneRule,
      specChoicesRuleStrict, specContentRule, specDefaultOutcome]
    rcases hu : getField (JsonVal.jobj fields) usageKey with _ | u
    · simp only [hu, truthyOpt]
      by_cases hd : isDoneTrue (getField (JsonVal.jobj fields) doneKey) = true
      · simp [hd, hu]
      · simp only [Bool.not_eq_true] at hd
        simp only [hd, if_false]
        rcases hc : getField (JsonVal.jobj fields) choicesKey with _ | cv
        · rcases hk : getField (JsonVal.jobj fields) contentKey with _ | kv
          · simp [hc, hk]
          · cases kv <;> simp [hc, hk]
        · cases cv with
          | jarr elems =>
            cases elems with
            | nil =>
              rcases hk : getField (JsonVal.jobj fields) contentKey with _ | kv
              · simp [hc, hk]
              · cases kv <;> simp [hc, hk]
            | cons c0 cs =>
              cases c0 <;> simp [hc]
          | jnull =>
            rcases hk : getField (JsonVal.jobj fields) contentKey with _ | kv
            · simp [hc, hk]
            · cases kv <;> simp [hc, hk]
          | jbool b =>
            rcases hk : getField (JsonVal.jobj fields) contentKey with _ | kv
            · simp [hc, hk]
            · cases kv <;> simp [hc, hk]
          | jnum n =>
            rcases hk : getField (JsonVal.jobj fields) contentKey with _ | kv
            · simp [hc, hk]
            · cases kv <;> simp [hc, hk]
          | jstr s =>
            rcases hk : getField (JsonVal.jobj fields) contentKey with _ | kv
            · simp [hc, hk]
            · cases kv <;> simp [hc, hk]
          | jobj f2 =>
            rcases hk : getField (JsonVal.jobj fields) contentKey with _ | kv
            · simp [hc, hk]
            · cases kv <;> simp [hc, hk]
      
    · by_cases ht : truthy u = true
      · simp [hu, truthyOpt, ht]
      · simp only [Bool.not_eq_true] at ht
        simp only [hu, truthyOpt, ht, if_false]
        by_cases hd : isDoneTrue (getField (JsonVal.jobj fields) doneKey) = true
        · simp [hd, hu]
        · simp only [Bool.not_eq_true] at hd
          simp only [hd, if_false]
          rcases hc : getField (JsonVal.jobj fields) choicesKey with _ | cv
          · rcases hk : getField (JsonVal.jobj fields) contentKey with _ | kv
            · simp [hc, hk]
            · cases kv <;> simp [hc, hk]
          · cases cv with
            | jarr elems =>
              cases elems with
              | nil =>
                rcases hk : getField (JsonVal.jobj fields) contentKey with _ | kv
                · simp [hc, hk]
                · cases kv <;> simp [hc, hk]
              | cons c0 cs =>
                cases c0 <;> simp [hc]
            | jnull =>
              rcases hk : getField (JsonVal.jobj fields) contentKey with _ | kv
              · simp [hc, hk]
              · cases kv <;> simp [hc, hk]
            | jbool b =>
              rcases hk : getField (JsonVal.jobj fields) contentKey with _ | kv
              · simp [hc, hk]
              · cases kv <;> simp [hc, hk]
            | jnum n =>
              rcases hk : getField (JsonVal.jobj fields) contentKey with _ | kv
              · simp [hc, hk]
              · cases kv <;> simp [hc, hk]
            | jstr s =>
              rcases hk : getField (JsonVal.jobj fields) contentKey with _ | kv
              · simp [hc, hk]
              · cases kv <;> simp [hc, hk]
            | jobj f2 =>
              rcases hk : getField (JsonVal.jobj fields) contentKey with _ | kv
              · simp [hc, hk]
              · cases kv <;> simp [hc, hk]

/-- Claim C8 amended: the decoder applies the extraction rules in fixed
priority order with first match winning, where a usage field counts when
present and truthy (the JS presence test), and a non-empty choices array with
a null first element makes the decoder raise, upon which the enclosing
handler (like a failed JSON parse) treats the raw payload text as literal
content; unparsed payloads are likewise treated as literal content, never as
an error. -/
theorem c8_decoder_rules :
    (∀ v, extractContentFromJson v = decoderSpecAmended v) ∧
    (∀ raw, decodePayloadPiece (Payload.unparsed raw) = (JsonVal.jstr raw, false)) ∧
    (∀ raw v, extractContentFromJson v = DecodeOutcome.raised →
      decodePayloadPiece (Payload.parsed raw v) = (JsonVal.jstr raw, false)) := by
  refine ⟨extract_eq_amended, fun raw => rfl, fun raw v h => ?_⟩
  simp only [decodePayloadPiece, h]

/-- Witness for c8_decoder_rules at the concrete raising payload. -/
theorem c8_witness :
    decodePayloadPiece (Payload.parsed ("x".toList) c8cexInput) = (JsonVal.jstr ("x".toList), false) :=
  c8_decoder_rules.2.2 ("x".toList) c8cexInput rfl

/-- Every event the first block emits is a ReasoningDelta. -/
theorem stepReason_events (st : EngineState) (r : List Char) :
    ∀ e ∈ (stepReason st r).2, isReasoningEv e = true := by
  unfold stepReason
  split
  · dsimp only
    split
    · intro e he
      simp only [List.mem_singleton] at he
      subst he
      rfl
    · intro e he
      simp at he
  · intro e he
    simp at he

/-- Every event the transition block emits is a ReasoningDelta. -/
theorem stepFlush_events (st : EngineState) (r a : List Char) :
    ∀ e ∈ (stepFlush st r a).2, isReasoningEv e = true := by
  unfold stepFlush
  split
  · dsimp only
    split
    · split
      · intro e he
        simp only [List.mem_singleton] at he
        subst he
        rfl
      · intro e he
        simp at he
    · intro e he
      simp at he
  · intro e he
    simp at he

/-- Every event the answer block emits is an AnswerDelta. -/
theorem stepAnswer_events (st : EngineState) (a : List Char) :
    ∀ e ∈ (stepAnswer st a).2, isAnswerEv e = true := by
  unfold stepAnswer
  split
  · dsimp only
    split
    · intro e he
      simp only [List.mem_singleton] at he
      subst he
      rfl
    · intro e he
      simp at he
  · intro e he
    simp at he

/-- The snapshot update emits only reasoning and answer deltas. -/
theorem processContent_events (st : EngineState) (piece : JsonVal) :
    ∀ e ∈ (processContent st piece).2, isReasoningEv e = true ∨ isAnswerEv e = true := by
  unfold processContent
  split
  · intro e he
    unfold engineStep at he
    simp only [List.mem_append] at he
    rcases he with (he | he) | he
    · exact Or.inl (stepReason_events _ _ e he)
    · exact Or.inl (stepFlush_events _ _ _ e he)
    · exact Or.inr (stepAnswer_events _ _ e he)
  · intro e he
    simp at he

/-- The chunk line loop emits only reasoning and answer deltas. -/
theorem processChunk_events (ps : List Payload) :
    ∀ st : EngineState, ∀ e ∈ (processChunk st ps).2, isReasoningEv e = true ∨ isAnswerEv e = true := by
  induction ps with
  | nil =>
    intro st e he
    simp [processChunk] at he
  | cons p rest ih =>
    intro st e he
    unfold processChunk at he
    dsimp only at he
    split at he
    · simp at he
    · simp only [List.mem_append] at he
      rcases he with he | he
      · exact processContent_events _ _ e he
      · exact ih _ e he

/-- The whole engine run emits only reasoning and answer deltas. -/
theorem runChunks_events (chunks : List (List Payload)) :
    ∀ st : EngineState, ∀ e ∈ (runChunks st chunks).2, isReasoningEv e = true ∨ isAnswerEv e = true := by
  induction chunks with
  | nil =>
    intro st e he
    simp [runChunks] at he
  | cons c rest ih =>
    intro st e he
    unfold runChunks at he
    simp only [List.mem_append] at he
    rcases he with he | he
    · exact processChunk_events _ _ e he
    · exact ih _ e he

/-- Within one transport chunk, everything after a terminal payload is
ignored: the data callback returns. -/
theorem processChunk_stops_at_done (st : EngineState) (pre post : List Payload) (p : Payload)
    (h : (decodePayloadPiece p).2 = true) :
    processChunk st (pre ++ p :: post) = processChunk st (pre ++ [p]) := by
  induction pre generalizing st with
  | nil =>
    simp only [List.nil_append]
    unfold processChunk
    simp [h]
  | cons q pre ih =>
    simp only [List.cons_append]
    unfold processChunk
    by_cases hq : (decodePayloadPiece q).2 = true
    · simp [hq]
    · simp only [hq, if_false]
      rw [ih]

/-- Claim C1 amended: once a payload decodes as terminal, the remaining lines
of the same transport chunk are not processed; lines in later chunks are
processed normally (the callback return does not persist); and the emitted
sequence is the role chunk, then deltas only, closed by exactly one Stop
followed by exactly one Done. -/
theorem c1_terminal_handling :
    (∀ (st : EngineState) (pre post : List Payload) (p : Payload),
      (decodePayloadPiece p).2 = true →
      processChunk st (pre ++ p :: post) = processChunk st (pre ++ [p])) ∧
    (∀ chunks, ∃ l, handleK2StreamEvents chunks =
      DeltaEvent.roleAnnounce :: (l ++ [DeltaEvent.stop, DeltaEvent.done]) ∧
      ∀ e ∈ l, isReasoningEv e = true ∨ isAnswerEv e = true) := by
  refine ⟨fun st pre post p h => processChunk_stops_at_done st pre post p h, fun chunks => ?_⟩
  exact ⟨(runChunks initState chunks).2, rfl, runChunks_events chunks initState⟩

/-- Witness for c1_terminal_handling at concrete inputs. -/
theorem c1_witness :
    processChunk initState ([] ++ donePayload :: [answerHiPayload]) =
      processChunk initState ([] ++ [donePayload]) ∧
    ∃ l, handleK2StreamEvents c1chunksInput =
      DeltaEvent.roleAnnounce :: (l ++ [DeltaEvent.stop, DeltaEvent.done]) ∧
      ∀ e ∈ l, isReasoningEv e = true ∨ isAnswerEv e = true :=
  ⟨c1_terminal_handling.1 initState [] [answerHiPayload] donePayload (by decide),
   c1_terminal_handling.2 c1chunksInput⟩

/-- Counterexample to claim C1: the first chunk's only payload decodes as
terminal, yet the payload in the following transport chunk is still processed
and produces an AnswerDelta. -/
theorem c1_counterexample :
    (decodePayloadPiece donePayload).2 = true ∧
    handleK2StreamEvents c1chunksInput =
      [DeltaEvent.roleAnnounce, DeltaEvent.answerDelta ("hi".toList),
       DeltaEvent.stop, DeltaEvent.done] := by
  exact ⟨by decide, by decide⟩

/-- The first block only ever touches previousReasoning. -/
theorem stepReason_fields (st : EngineState) (r : List Char) :
    ((stepReason st r).1).previousAnswer = st.previousAnswer ∧
    ((stepReason st r).1).reasoningPhase = st.reasoningPhase := by
  unfold stepReason
  split
  · dsimp only
    split <;> exact ⟨rfl, rfl⟩
  · exact ⟨rfl, rfl⟩

/-- The transition block only ever touches reasoningPhase. -/
theorem stepFlush_fields (st : EngineState) (r a : List Char) :
    ((stepFlush st r a).1).previousReasoning = st.previousReasoning ∧
    ((stepFlush st r a).1).previousAnswer = st.previousAnswer := by
  unfold stepFlush
  split
  · dsimp only
    split
    · split <;> exact ⟨rfl, rfl⟩
    · exact ⟨rfl, rfl⟩
  · exact ⟨rfl, rfl⟩

/-- The answer block only ever touches previousAnswer. -/
theorem stepAnswer_fields (st : EngineState) (a : List Char) :
    ((stepAnswer st a).1).previousReasoning = st.previousReasoning ∧
    ((stepAnswer st a).1).reasoningPhase = st.reasoningPhase := by
  unfold stepAnswer
  split
  · dsimp only
    split <;> exact ⟨rfl, rfl⟩
  · exact ⟨rfl, rfl⟩

/-- The first block never shortens previousReasoning: it only updates when
the suffix delta trims non-empty, which forces the new value to be at least
as long. -/
theorem stepReason_prevR_le (st : EngineState) (r : List Char) :
    st.previousReasoning.length ≤ ((stepReason st r).1).previousReasoning.length := by
  unfold stepReason
  split
  · dsimp only
    split
    · rename_i hg ht
      show st.previousReasoning.length ≤ r.length
      by_cases hp : st.previousReasoning = []
      · simp [hp]
      · by_contra hlt
        push_neg at hlt
        have hd : calculateDeltaContent st.previousReasoning r = [] := by
          simp only [calculateDeltaContent, hp, hg.2, if_false]
          exact List.drop_eq_nil_of_le (Nat.le_of_lt hlt)
        rw [hd] at ht
        exact ht rfl
    · exact Nat.le_refl _
  · exact Nat.le_refl _

/-- The answer block never shortens previousAnswer. -/
theorem stepAnswer_prevA_le (st : EngineState) (a : List Char) :
    st.previousAnswer.length ≤ ((stepAnswer st a).1).previousAnswer.length := by
  unfold stepAnswer
  split
  · dsimp only
    split
    · rename_i hg ht
      show st.previousAnswer.length ≤ a.length
      by_cases hp : st.previousAnswer = []
      · simp [hp]
      · by_contra hlt
        push_neg at hlt
        have hd : calculateDeltaContent st.previousAnswer a = [] := by
          simp only [calculateDeltaContent, hp, hg.2, if_false]
          exact List.drop_eq_nil_of_le (Nat.le_of_lt hlt)
        rw [hd] at ht
        exact ht rfl
    · exact Nat.le_refl _
  · exact Nat.le_refl _

/-- One snapshot update never shortens either tracked value. -/
theorem engineStep_prev_le (st : EngineState) (r a : List Char) :
    st.previousReasoning.length ≤ ((engineStep st r a).1).previousReasoning.length ∧
    st.previousAnswer.length ≤ ((engineStep st r a).1).previousAnswer.length := by
  unfold engineStep
  dsimp only
  constructor
  · rw [(stepAnswer_fields _ _).1, (stepFlush_fields _ _ _).1]
    exact stepReason_prevR_le st r
  · calc st.previousAnswer.length
        = ((stepFlush (stepReason st r).1 r a).1).previousAnswer.length := by
          rw [(stepFlush_fields _ _ _).2, (stepReason_fields _ _).1]
      _ ≤ _ := stepAnswer_prevA_le _ a

/-- A content piece never shortens either tracked value. -/
theorem processContent_prev_le (st : EngineState) (piece : JsonVal) :
    st.previousReasoning.length ≤ ((processContent st piece).1).previousReasoning.length ∧
    st.previousAnswer.length ≤ ((processContent st piece).1).previousAnswer.length := by
  unfold processContent
  split
  · exact engineStep_prev_le _ _ _
  · exact ⟨Nat.le_refl _, Nat.le_refl _⟩

/-- A snapshot run never shortens either tracked value. -/
theorem runSnapshots_prev_le (snaps : List (List Char)) :
    ∀ st : EngineState,
    st.previousReasoning.length ≤ ((runSnapshots st snaps).1).previousReasoning.length ∧
    st.previousAnswer.length ≤ ((runSnapshots st snaps).1).previousAnswer.length := by
  induction snaps with
  | nil => exact fun st => ⟨Nat.le_refl _, Nat.le_refl _⟩
  | cons s rest ih =>
    intro st
    unfold runSnapshots
    dsimp only
    constructor
    · exact Nat.le_trans (processContent_prev_le st (JsonVal.jstr s)).1 (ih _).1
    · exact Nat.le_trans (processContent_prev_le st (JsonVal.jstr s)).2 (ih _).2

/-- A chunk run never shortens either tracked value. -/
theorem processChunk_prev_le (ps : List Payload) :
    ∀ st : EngineState,
    st.previousReasoning.length ≤ ((processChunk st ps).1).previousReasoning.length ∧
    st.previousAnswer.length ≤ ((processChunk st ps).1).previousAnswer.length := by
  induction ps with
  | nil => exact fun st => ⟨Nat.le_refl _, Nat.le_refl _⟩
  | cons p rest ih =>
    intro st
    unfold processChunk
    dsimp only
    split
    · exact ⟨Nat.le_refl _, Nat.le_refl _⟩
    · constructor
      · exact Nat.le_trans (processContent_prev_le st _).1 (ih _).1
      · exact Nat.le_trans (processContent_prev_le st _).2 (ih _).2

/-- A whole engine run never shortens either tracked value. -/
theorem runChunks_prev_le (chunks : List (List Payload)) :
    ∀ st : EngineState,
    st.previousReasoning.length ≤ ((runChunks st chunks).1).previousReasoning.length ∧
    st.previousAnswer.length ≤ ((runChunks st chunks).1).previousAnswer.length := by
  induction chunks with
  | nil => exact fun st => ⟨Nat.le_refl _, Nat.le_refl _⟩
  | cons c rest ih =>
    intro st
    unfold runChunks
    dsimp only
    constructor
    · exact Nat.le_trans (processChunk_prev_le c st).1 (ih _).1
    · exact Nat.le_trans (processChunk_prev_le c st).2 (ih _).2

/-- Claim C7: across all snapshot updates of one request the tracked values
previousReasoning and previousAnswer are monotonically non-decreasing in
length; no step of the delta engine replaces either tracked value with a
shorter string, at the single-update, snapshot-run and whole-stream level. -/
theorem c7_tracked_monotone :
    (∀ (st : EngineState) (r a : List Char),
      st.previousReasoning.length ≤ ((engineStep st r a).1).previousReasoning.length ∧
      st.previousAnswer.length ≤ ((engineStep st r a).1).previousAnswer.length) ∧
    (∀ (st : EngineState) (snaps : List (List Char)),
      st.previousReasoning.length ≤ ((runSnapshots st snaps).1).previousReasoning.length ∧
      st.previousAnswer.length ≤ ((runSnapshots st snaps).1).previousAnswer.length) ∧
    (∀ (st : EngineState) (chunks : List (List Payload)),
      st.previousReasoning.length ≤ ((runChunks st chunks).1).previousReasoning.length ∧
      st.previousAnswer.length ≤ ((runChunks st chunks).1).previousAnswer.length) :=
  ⟨engineStep_prev_le, fun st snaps => runSnapshots_prev_le snaps st,
   fun st chunks => runChunks_prev_le chunks st⟩

/-- Outside the reasoning phase the first block does nothing. -/
theorem stepReason_noop_false (st : EngineState) (r : List Char)
    (h : st.reasoningPhase = false) : stepReason st r = (st, []) := by
  simp [stepReason, h]

/-- Outside the reasoning phase the transition block does nothing. -/
theorem stepFlush_noop_false (st : EngineState) (r a : List Char)
    (h : st.reasoningPhase = false) : stepFlush st r a = (st, []) := by
  simp [stepFlush, h]

/-- Inside the reasoning phase the answer block does nothing. -/
theorem stepAnswer_noop_true (st : EngineState) (a : List Char)
    (h : st.reasoningPhase = true) : stepAnswer st a = (st, []) := by
  simp [stepAnswer, h]

/-- The phase after the transition block: it leaves the reasoning phase
exactly when the current answer is non-empty. -/
theorem stepFlush_phase (st : EngineState) (r a : List Char) :
    ((stepFlush st r a).1).reasoningPhase = (st.reasoningPhase && a.isEmpty) := by
  by_cases ha : a = []
  · subst ha
    simp [stepFlush]
  · have he : a.isEmpty = false := by
      simp [List.isEmpty_iff, ha]
    by_cases hp : st.reasoningPhase = true
    · simp only [stepFlush, ha, hp, ne_eq, not_false_iff, true_and, if_true, he, Bool.and_false]
      split
      · split <;> rfl
      · rfl
    · simp only [Bool.not_eq_true] at hp
      simp [stepFlush, hp]

/-- The phase after one snapshot update. -/
theorem engineStep_phase (st : EngineState) (r a : List Char) :
    ((engineStep st r a).1).reasoningPhase = (st.reasoningPhase && a.isEmpty) := by
  unfold engineStep
  dsimp only
  rw [(stepAnswer_fields _ _).2, stepFlush_phase, (stepReason_fields _ _).2]

/-- A snapshot with empty sections is a no-op update. -/
theorem engineStep_nil_nil (st : EngineState) : engineStep st [] [] = (st, []) := by
  simp [engineStep, stepReason, stepFlush, stepAnswer]

/-- A string content piece is processed exactly as one engine step on its
extracted sections (the empty string is skipped by the truthiness guard, but
its sections are empty so the step is a no-op either way). -/
theorem processContent_jstr (st : EngineState) (s : List Char) :
    processContent st (JsonVal.jstr s) =
      engineStep st (extractReasoningAndAnswer s).1 (extractReasoningAndAnswer s).2 := by
  unfold processContent snapshotSections
  by_cases hs : s = []
  · subst hs
    simp [truthy, extractReasoningAndAnswer, engineStep_nil_nil]
  · simp [truthy, List.isEmpty_iff, hs]

/-- The answering phase is absorbing across one content piece. -/
theorem processContent_phase_false (st : EngineState) (piece : JsonVal)
    (h : st.reasoningPhase = false) :
    ((processContent st piece).1).reasoningPhase = false := by
  unfold processContent
  split
  · rw [engineStep_phase, h, Bool.false_and]
  · exact h

/-- The answering phase is absorbing across one chunk. -/
theorem processChunk_phase_false (ps : List Payload) :
    ∀ st : EngineState, st.reasoningPhase = false →
    ((processChunk st ps).1).reasoningPhase = false := by
  induction ps with
  | nil => exact fun st h => h
  | cons p rest ih =>
    intro st h
    unfold processChunk
    dsimp only
    split
    · exact h
    · exact ih _ (processContent_phase_false st _ h)

/-- The answering phase is absorbing across the whole run. -/
theorem runChunks_phase_false (chunks : List (List Payload)) :
    ∀ st : EngineState, st.reasoningPhase = false →
    ((runChunks st chunks).1).reasoningPhase = false := by
  induction chunks with
  | nil => exact fun st h => h
  | cons c rest ih =>
    intro st h
    unfold runChunks
    dsimp only
    exact ih _ (processChunk_phase_false c st h)

/-- The answering phase is absorbing across a snapshot run. -/
theorem runSnapshots_phase_false (snaps : List (List Char)) :
    ∀ st : EngineState, st.reasoningPhase = false →
    ((runSnapshots st snaps).1).reasoningPhase = false := by
  induction snaps with
  | nil => exact fun st h => h
  | cons s rest ih =>
    intro st h
    unfold runSnapshots
    dsimp only
    exact ih _ (processContent_phase_false st _ h)

/-- Starting in the reasoning phase, the run ends in the answering phase if
and only if some snapshot has a non-empty extracted answer. -/
theorem runSnapshots_phase_iff (snaps : List (List Char)) :
    ∀ st : EngineState, st.reasoningPhase = true →
    (((runSnapshots st snaps).1).reasoningPhase = false ↔
      ∃ s ∈ snaps, (extractReasoningAndAnswer s).2 ≠ []) := by
  induction snaps with
  | nil =>
    intro st h
    simp [runSnapshots, h]
  | cons s rest ih =>
    intro st h
    unfold runSnapshots
    dsimp only
    rw [processContent_jstr]
    by_cases hA : (extractReasoningAndAnswer s).2 = []
    · have hph : ((engineStep st (extractReasoningAndAnswer s).1 (extractReasoningAndAnswer s).2).1).reasoningPhase = true := by
        rw [engineStep_phase, h, hA]
        rfl
      rw [ih _ hph]
      simp [hA]
    · have hph : ((engineStep st (extractReasoningAndAnswer s).1 (extractReasoningAndAnswer s).2).1).reasoningPhase = false := by
        rw [engineStep_phase, h, Bool.true_and]
        simp [List.isEmpty_iff, hA]
      constructor
      · intro _
        exact ⟨s, List.mem_cons_self s rest, hA⟩
      · intro _
        exact runSnapshots_phase_false rest _ hph

/-- In the reasoning phase one update emits reasoning deltas then answer
deltas, and emits no answer delta at all if it stays in the reasoning
phase. -/
theorem engineStep_split_true (st : EngineState) (r a : List Char)
    (h : st.reasoningPhase = true) :
    ∃ l1 l2, (engineStep st r a).2 = l1 ++ l2 ∧
      (∀ e ∈ l1, isReasoningEv e = true) ∧ (∀ e ∈ l2, isAnswerEv e = true) ∧
      (((engineStep st r a).1).reasoningPhase = true → l2 = []) := by
  refine ⟨(stepReason st r).2 ++ (stepFlush (stepReason st r).1 r a).2,
          (stepAnswer ((stepFlush (stepReason st r).1 r a).1) a).2, ?_, ?_, ?_, ?_⟩
  · rfl
  · intro e he
    rcases List.mem_append.mp he with he | he
    · exact stepReason_events _ _ e he
    · exact stepFlush_events _ _ _ e he
  · exact stepAnswer_events _ _
  · intro hp
    rw [engineStep_phase, h, Bool.true_and] at hp
    have ha : a = [] := List.isEmpty_iff.mp hp
    subst ha
    simp [stepAnswer]

/-- In the answering phase one update emits only answer deltas. -/
theorem engineStep_false_events (st : EngineState) (r a : List Char)
    (h : st.reasoningPhase = false) :
    ∀ e ∈ (engineStep st r a).2, isAnswerEv e = true := by
  unfold engineStep
  dsimp only
  rw [stepReason_noop_false st r h]
  dsimp only
  rw [stepFlush_noop_false st r a h]
  dsimp only
  intro e he
  rw [List.nil_append, List.nil_append] at he
  exact stepAnswer_events _ _ e he

/-- Lift of engineStep_split_true to a content piece. -/
theorem processContent_split_true (st : EngineState) (piece : JsonVal)
    (h : st.reasoningPhase = true) :
    ∃ l1 l2, (processContent st piece).2 = l1 ++ l2 ∧
      (∀ e ∈ l1, isReasoningEv e = true) ∧ (∀ e ∈ l2, isAnswerEv e = true) ∧
      (((processContent st piece).1).reasoningPhase = true → l2 = []) := by
  unfold processContent
  split
  · exact engineStep_split_true st _ _ h
  · exact ⟨[], [], rfl, by simp, by simp, fun _ => rfl⟩

/-- Lift of engineStep_false_events to a content piece. -/
theorem processContent_false_events (st : EngineState) (piece : JsonVal)
    (h : st.reasoningPhase = false) :
    ∀ e ∈ (processContent st piece).2, isAnswerEv e = true := by
  unfold processContent
  split
  · exact engineStep_false_events st _ _ h
  · intro e he
    simp at he

/-- Ordering of emissions across one chunk. -/
theorem processChunk_split (ps : List Payload) :
    ∀ st : EngineState,
    (st.reasoningPhase = true →
      ∃ l1 l2, (processChunk st ps).2 = l1 ++ l2 ∧
        (∀ e ∈ l1, isReasoningEv e = true) ∧ (∀ e ∈ l2, isAnswerEv e = true) ∧
        (((processChunk st ps).1).reasoningPhase = true → l2 = [])) ∧
    (st.reasoningPhase = false →
      ∀ e ∈ (processChunk st ps).2, isAnswerEv e = true) := by
  induction ps with
  | nil =>
    intro st
    constructor
    · intro _
      exact ⟨[], [], rfl, by simp, by simp, fun _ => rfl⟩
    · intro _ e he
      simp [processChunk] at he
  | cons p rest ih =>
    intro st
    constructor
    · intro h
      unfold processChunk
      dsimp only
      split
      · exact ⟨[], [], rfl, by simp, by simp, fun _ => rfl⟩
      · obtain ⟨l1, l2, heq, hr1, ha2, hlast⟩ := processContent_split_true st _ h
        by_cases hph : ((processContent st (decodePayloadPiece p).1).1).reasoningPhase = true
        · obtain ⟨m1, m2, heq2, hr2, ha3, hlast2⟩ := (ih _).1 hph
          refine ⟨l1 ++ m1, m2, ?_, ?_, ha3, ?_⟩
          · rw [heq, heq2, hlast hph, List.append_nil, List.append_assoc]
          · intro e he
            rcases List.mem_append.mp he with he | he
            · exact hr1 e he
            · exact hr2 e he
          · exact hlast2
        · simp only [Bool.not_eq_true] at hph
          refine ⟨l1, l2 ++ (processChunk ((processContent st (decodePayloadPiece p).1).1) rest).2, ?_, hr1, ?_, ?_⟩
          · rw [heq, List.append_assoc]
          · intro e he
            rcases List.mem_append.mp he with he | he
            · exact ha2 e he
            · exact (ih _).2 hph e he
          · intro hfin
            rw [processChunk_phase_false rest _ hph] at hfin
            exact absurd hfin (by simp)
    · intro h e he
      unfold processChunk at he
      dsimp only at he
      split at he
      · simp at he
      · rcases List.mem_append.mp he with he | he
        · exact processContent_false_events st _ h e he
        · exact (ih _).2 (processContent_phase_false st _ h) e he

/-- Ordering of emissions across the whole run. -/
theorem runChunks_split (chunks : List (List Payload)) :
    ∀ st : EngineState,
    (st.reasoningPhase = true →
      ∃ l1 l2, (runChunks st chunks).2 = l1 ++ l2 ∧
        (∀ e ∈ l1, isReasoningEv e = true) ∧ (∀ e ∈ l2, isAnswerEv e = true) ∧
        (((runChunks st chunks).1).reasoningPhase = true → l2 = [])) ∧
    (st.reasoningPhase = false →
      ∀ e ∈ (runChunks st chunks).2, isAnswerEv e = true) := by
  induction chunks with
  | nil =>
    intro st
    constructor
    · intro _
      exact ⟨[], [], rfl, by simp, by simp, fun _ => rfl⟩
    · intro _ e he
      simp [runChunks] at he
  | cons c rest ih =>
    intro st
    constructor
    · intro h
      unfold runChunks
      dsimp only
      obtain ⟨l1, l2, heq, hr1, ha2, hlast⟩ := (processChunk_split c st).1 h
      by_cases hph : ((processChunk st c).1).reasoningPhase = true
      · obtain ⟨m1, m2, heq2, hr2, ha3, hlast2⟩ := (ih _).1 hph
        refine ⟨l1 ++ m1, m2, ?_, ?_, ha3, ?_⟩
        · rw [heq, heq2, hlast hph, List.append_nil, List.append_assoc]
        · intro e he
          rcases List.mem_append.mp he with he | he
          · exact hr1 e he
          · exact hr2 e he
        · exact hlast2
      · simp only [Bool.not_eq_true] at hph
        refine ⟨l1, l2 ++ (runChunks ((processChunk st c).1) rest).2, ?_, hr1, ?_, ?_⟩
        · rw [heq, List.append_assoc]
        · intro e he
          rcases List.mem_append.mp he with he | he
          · exact ha2 e he
          · exact (ih _).2 hph e he
        · intro hfin
          rw [runChunks_phase_false rest _ hph] at hfin
          exact absurd hfin (by simp)
    · intro h e he
      unfold runChunks at he
      dsimp only at he
      rcases List.mem_append.mp he with he | he
      · exact (processChunk_split c st).2 h e he
      · exact (ih _).2 (processChunk_phase_false c st h) e he

/-- Claim C6: the engine starts in the Reasoning phase; the transition to
Answering is irreversible; starting from the initial state the run ends in
Answering exactly when some snapshot carries answer text; and in the emitted
event sequence every ReasoningDelta precedes every AnswerDelta. -/
theorem c6_phase_machine :
    initState.reasoningPhase = true ∧
    (∀ (st : EngineState) (chunks : List (List Payload)), st.reasoningPhase = false →
      ((runChunks st chunks).1).reasoningPhase = false) ∧
    (∀ snaps : List (List Char),
      ((runSnapshots initState snaps).1).reasoningPhase = false ↔
        ∃ s ∈ snaps, (extractReasoningAndAnswer s).2 ≠ []) ∧
    (∀ chunks : List (List Payload),
      ∃ l1 l2, (runChunks initState chunks).2 = l1 ++ l2 ∧
        (∀ e ∈ l1, isReasoningEv e = true) ∧ (∀ e ∈ l2, isAnswerEv e = true)) := by
  refine ⟨rfl, fun st chunks h => runChunks_phase_false chunks st h,
          fun snaps => runSnapshots_phase_iff snaps initState rfl, fun chunks => ?_⟩
  obtain ⟨l1, l2, heq, hr, ha, _⟩ := (runChunks_split chunks initState).1 rfl
  exact ⟨l1, l2, heq, hr, ha⟩

/-- Witness for c6_phase_machine at concrete inputs. -/
theorem c6_witness :
    ((runChunks ({ previousReasoning := [], previousAnswer := [], reasoningPhase := false } : EngineState) []).1).reasoningPhase = false ∧
    (((runSnapshots initState [c4snap1]).1).reasoningPhase = false ↔
      ∃ s ∈ [c4snap1], (extractReasoningAndAnswer s).2 ≠ []) ∧
    (∃ l1 l2, (runChunks initState c1chunksInput).2 = l1 ++ l2 ∧
      (∀ e ∈ l1, isReasoningEv e = true) ∧ (∀ e ∈ l2, isAnswerEv e = true)) :=
  ⟨c6_phase_machine.2.1 _ [] rfl, c6_phase_machine.2.2.1 [c4snap1],
   c6_phase_machine.2.2.2 c1chunksInput⟩

/-- Head of a dropWhile result never satisfies the predicate. -/
theorem dropWhile_head_false (p : Char → Bool) :
    ∀ (l : List Char) (c : Char) (rest : List Char),
    List.dropWhile p l = c :: rest → p c = false := by
  intro l
  induction l with
  | nil =>
    intro c rest h
    simp [List.dropWhile] at h
  | cons a t ih =>
    intro c rest h
    rw [List.dropWhile_cons] at h
    by_cases hp : p a = true
    · rw [if_pos hp] at h
      exact ih c rest h
    · rw [if_neg hp] at h
      obtain ⟨h1, h2⟩ := List.cons.injEq a t c rest ▸ h
      subst h1
      exact Bool.not_eq_true (p a) ▸ hp

/-- A trailing element that fails the predicate survives dropWhile. -/
theorem dropWhile_append_last (p : Char → Bool) {c : Char} (hc : p c = false)
    (l : List Char) :
    List.dropWhile p (l ++ [c]) = List.dropWhile p l ++ [c] := by
  induction l with
  | nil =>
    simp [List.dropWhile_cons, hc]
  | cons a t ih =>
    rw [List.cons_append, List.dropWhile_cons, List.dropWhile_cons]
    by_cases hp : p a = true
    · rw [if_pos hp, if_pos hp]
      exact ih
    · rw [if_neg hp, if_neg hp, List.cons_append]

/-- dropWhile is the identity when the head (if any) fails the predicate. -/
theorem dropWhile_eq_self_of_head (p : Char → Bool) (l : List Char)
    (h : ∀ c ∈ l.head?, p c = false) :
    List.dropWhile p l = l := by
  cases l with
  | nil => rfl
  | cons a t =>
    have := h a rfl
    simp [List.dropWhile_cons, this]

/-- A non-empty suffix has the same last element. -/
theorem getLast?_of_suffix {l t : List Char} (h : t <:+ l) (ht : t ≠ []) :
    t.getLast? = l.getLast? := by
  obtain ⟨pre, rfl⟩ := h
  rw [List.getLast?_append]
  rcases hg : t.getLast? with _ | c
  · exact absurd (List.getLast?_eq_none_iff.mp hg) ht
  · rfl

/-- The last character of a trimmed string is not whitespace. -/
theorem jsTrim_getLast_not_ws (s : List Char) :
    ∀ c ∈ (jsTrim s).getLast?, isJsWs c = false := by
  intro c hc
  have hrw : (jsTrim s).getLast? = (jsTrim s).reverse.head? := (List.head?_reverse _).symm
  rw [hrw] at hc
  unfold jsTrim at hc
  rw [List.reverse_reverse] at hc
  rcases hz : List.dropWhile isJsWs ((s.dropWhile isJsWs).reverse) with _ | ⟨z, zs⟩
  · rw [hz] at hc
    simp at hc
  · rw [hz] at hc
    simp only [List.head?_cons, Option.mem_def, Option.some.injEq] at hc
    subst hc
    exact dropWhile_head_false _ _ _ _ hz

/-- The first character of a trimmed string is not whitespace. -/
theorem jsTrim_head_not_ws (s : List Char) :
    ∀ c ∈ (jsTrim s).head?, isJsWs c = false := by
  intro c hc
  unfold jsTrim at hc
  rw [List.head?_reverse] at hc
  by_cases hZ : List.dropWhile isJsWs ((s.dropWhile isJsWs).reverse) = []
  · rw [hZ] at hc
    simp at hc
  · have hsuf : List.dropWhile isJsWs ((s.dropWhile isJsWs).reverse) <:+
        (s.dropWhile isJsWs).reverse := List.dropWhile_suffix isJsWs
    rw [getLast?_of_suffix hsuf hZ] at hc
    have hrev : ((s.dropWhile isJsWs).reverse).getLast? = (s.dropWhile isJsWs).head? := by
      rw [← List.head?_reverse, List.reverse_reverse]
    rw [hrev] at hc
    rcases hdw : s.dropWhile isJsWs with _ | ⟨d, ds⟩
    · rw [hdw] at hc
      simp at hc
    · rw [hdw] at hc
      simp only [List.head?_cons, Option.mem_def, Option.some.injEq] at hc
      subst hc
      exact dropWhile_head_false _ _ _ _ hdw

/-- Trimming is the identity on strings with non-whitespace ends. -/
theorem jsTrim_eq_self (l : List Char)
    (h1 : ∀ c ∈ l.head?, isJsWs c = false)
    (h2 : ∀ c ∈ l.getLast?, isJsWs c = false) : jsTrim l = l := by
  unfold jsTrim
  rw [dropWhile_eq_self_of_head _ _ h1]
  rw [dropWhile_eq_self_of_head _ _ (by
    intro c hc
    rw [List.head?_reverse] at hc
    exact h2 c hc)]
  exact List.reverse_reverse l

/-- Trimming is idempotent. -/
theorem jsTrim_idem (s : List Char) : jsTrim (jsTrim s) = jsTrim s :=
  jsTrim_eq_self (jsTrim s) (jsTrim_head_not_ws s) (jsTrim_getLast_not_ws s)

theorem jsTrim_nil : jsTrim [] = [] := rfl

/-- Both extracted sections are fixed points of trimming. -/
theorem extract_trimmed (s : List Char) :
    jsTrim (extractReasoningAndAnswer s).1 = (extractReasoningAndAnswer s).1 ∧
    jsTrim (extractReasoningAndAnswer s).2 = (extractReasoningAndAnswer s).2 := by
  by_cases h : s = []
  · subst h
    exact ⟨rfl, rfl⟩
  · unfold extractReasoningAndAnswer
    rw [if_neg h]
    constructor
    · cases hfr : findReasoningCapture s <;> simp [hfr, jsTrim_idem, jsTrim_nil]
    · cases hfa : findAnswerCapture s <;> simp [hfa, jsTrim_idem, jsTrim_nil]

/-- A string whose last character is not whitespace trims to something
non-empty. -/
theorem jsTrim_ne_nil_of_getLast {t : List Char} {c : Char}
    (h1 : t.getLast? = some c) (h2 : isJsWs c = false) : jsTrim t ≠ [] := by
  obtain ⟨m, rfl⟩ := List.getLast?_eq_some_iff.mp h1
  unfold jsTrim
  rw [dropWhile_append_last isJsWs h2, List.reverse_append]
  simp only [List.reverse_cons, List.reverse_nil, List.nil_append, List.singleton_append]
  rw [List.dropWhile_cons, h2]
  simp

/-- A non-empty suffix of a trimmed string trims to something non-empty (its
last character is the non-whitespace last character of the whole). -/
theorem trim_delta_ne_nil {r pre t : List Char} (hr : jsTrim r = r)
    (he : r = pre ++ t) (ht : t ≠ []) : jsTrim t ≠ [] := by
  have hsuf : t <:+ r := ⟨pre, he.symm⟩
  have hlast : t.getLast? = r.getLast? := getLast?_of_suffix hsuf ht
  have hrne : r ≠ [] := by
    rw [he]
    simp [List.append_eq_nil, ht]
  rcases hrl : r.getLast? with _ | c
  · exact absurd (List.getLast?_eq_none_iff.mp hrl) hrne
  · have hc : isJsWs c = false := by
      have hlws := jsTrim_getLast_not_ws r
      rw [hr] at hlws
      exact hlws c hrl
    exact jsTrim_ne_nil_of_getLast (hlast.trans hrl) hc

/-- The suffix-by-length delta of an append extension is the appended tail. -/
theorem calcDelta_append (p t : List Char) : calculateDeltaContent p (p ++ t) = t := by
  unfold calculateDeltaContent
  by_cases hp : p = []
  · subst hp
    simp
  · have hpt : p ++ t ≠ [] := by
      simp [List.append_eq_nil, hp]
    rw [if_neg hp, if_neg hpt, List.drop_left]

/-- Concatenated reasoning payloads split over list append. -/
theorem concatReasoningDeltas_append (l1 l2 : List DeltaEvent) :
    concatReasoningDeltas (l1 ++ l2) =
      concatReasoningDeltas l1 ++ concatReasoningDeltas l2 := by
  induction l1 with
  | nil => rfl
  | cons e rest ih =>
    cases e <;> simp [concatReasoningDeltas, ih]

/-- Concatenated answer payloads split over list append. -/
theorem concatAnswerDeltas_append (l1 l2 : List DeltaEvent) :
    concatAnswerDeltas (l1 ++ l2) =
      concatAnswerDeltas l1 ++ concatAnswerDeltas l2 := by
  induction l1 with
  | nil => rfl
  | cons e rest ih =>
    cases e <;> simp [concatAnswerDeltas, ih]

/-- Reasoning-only event lists carry no answer text. -/
theorem concatAnswerDeltas_eq_nil {l : List DeltaEvent}
    (h : ∀ e ∈ l, isReasoningEv e = true) : concatAnswerDeltas l = [] := by
  induction l with
  | nil => rfl
  | cons e rest ih =>
    have he := h e (List.mem_cons_self e rest)
    have hrest := ih (fun x hx => h x (List.mem_cons_of_mem e hx))
    cases e <;> simp [isReasoningEv] at he <;> simp [concatAnswerDeltas, hrest]

/-- Answer-only event lists carry no reasoning text. -/
theorem concatReasoningDeltas_eq_nil {l : List DeltaEvent}
    (h : ∀ e ∈ l, isAnswerEv e = true) : concatReasoningDeltas l = [] := by
  induction l with
  | nil => rfl
  | cons e rest ih =>
    have he := h e (List.mem_cons_self e rest)
    have hrest := ih (fun x hx => h x (List.mem_cons_of_mem e hx))
    cases e <;> simp [isAnswerEv] at he <;> simp [concatReasoningDeltas, hrest]

/-- In the answering phase, an answer that extends the tracked value by
appending is emitted exactly as its new suffix and the tracked value
advances to it. -/
theorem stepAnswer_grows (st : EngineState) (a : List Char)
    (hp : st.reasoningPhase = false) (hpre : st.previousAnswer <+: a)
    (hta : jsTrim a = a) :
    ((stepAnswer st a).1).previousAnswer = a ∧
    st.previousAnswer ++ concatAnswerDeltas (stepAnswer st a).2 = a := by
  obtain ⟨t, rfl⟩ := hpre
  by_cases htnil : t = []
  · subst htnil
    by_cases h0 : st.previousAnswer = []
    · simp [stepAnswer, h0, concatAnswerDeltas]
    · have hdelta : calculateDeltaContent st.previousAnswer st.previousAnswer = [] := by
        have := calcDelta_append st.previousAnswer []
        rwa [List.append_nil] at this
      simp [stepAnswer, hp, h0, hdelta, jsTrim_nil, concatAnswerDeltas]
  · have hd := calcDelta_append st.previousAnswer t
    have htr : jsTrim t ≠ [] := trim_delta_ne_nil hta rfl htnil
    have hane : st.previousAnswer ++ t ≠ [] := by
      simp [List.append_eq_nil, htnil]
    simp [stepAnswer, hp, hane, hd, htr, concatAnswerDeltas]

/-- In the reasoning phase, a reasoning section that extends the tracked
value by appending is emitted exactly as its new suffix and the tracked value
advances to it. -/
theorem stepReason_grows (st : EngineState) (r : List Char)
    (hp : st.reasoningPhase = true) (hpre : st.previousReasoning <+: r)
    (htr : jsTrim r = r) :
    ((stepReason st r).1).previousReasoning = r ∧
    st.previousReasoning ++ concatReasoningDeltas (stepReason st r).2 = r := by
  obtain ⟨t, rfl⟩ := hpre
  by_cases htnil : t = []
  · subst htnil
    by_cases h0 : st.previousReasoning = []
    · simp [stepReason, h0, concatReasoningDeltas]
    · have hdelta : calculateDeltaContent st.previousReasoning st.previousReasoning = [] := by
        have := calcDelta_append st.previousReasoning []
        rwa [List.append_nil] at this
      simp [stepReason, hp, h0, hdelta, jsTrim_nil, concatReasoningDeltas]
  · have hd := calcDelta_append st.previousReasoning t
    have htrd : jsTrim t ≠ [] := trim_delta_ne_nil htr rfl htnil
    have hrne : st.previousReasoning ++ t ≠ [] := by
      simp [List.append_eq_nil, htnil]
    simp [stepReason, hp, hrne, hd, htrd, concatReasoningDeltas]

/-- Claim C3 amended: for a single-event upstream sequence whose decoded
content piece is a string and whose extracted answer contains no literal
backslash-n pair, the concatenation of the streaming AnswerDelta payloads
equals the aggregation result.  (For longer sequences the two paths diverge:
aggregation joins all cumulative snapshots and re-extracts from the join.) -/
theorem c3_single_event_agreement (p : Payload) (s : List Char)
    (hd : decodePayloadPiece p = (JsonVal.jstr s, false))
    (hn : replaceEscN (extractReasoningAndAnswer s).2 = (extractReasoningAndAnswer s).2) :
    concatAnswerDeltas (processChunk initState [p]).2 = aggregateStream [p] := by
  have hrun : processChunk initState [p] =
      ((processContent initState (JsonVal.jstr s)).1,
        (processContent initState (JsonVal.jstr s)).2) := by
    unfold processChunk
    rw [hd]
    simp [processChunk]
  have hagg : aggregatePieces [p] =
      (if truthy (JsonVal.jstr s) = true then [JsonVal.jstr s] else []) := by
    unfold aggregatePieces
    rw [hd]
    simp [aggregatePieces]
  by_cases hs : s = []
  · subst hs
    rw [hrun]
    unfold aggregateStream
    rw [hagg]
    simp [processContent, truthy, aggregateStream, extractReasoningAndAnswer,
      replaceEscN, concatAnswerDeltas]
  · have htruthy : truthy (JsonVal.jstr s) = true := by
      simp [truthy, List.isEmpty_iff, hs]
    rw [hrun]
    unfold aggregateStream
    rw [hagg, if_pos htruthy]
    have hflat : List.flatten ([JsonVal.jstr s].map jsToString) = s := by
      simp [jsToString]
    rw [hflat, hn]
    rw [processContent_jstr]
    -- events of engineStep: e1 ++ e2 ++ e3
    unfold engineStep
    dsimp only
    rw [concatAnswerDeltas_append, concatAnswerDeltas_append]
    rw [concatAnswerDeltas_eq_nil (stepReason_events _ _),
        concatAnswerDeltas_eq_nil (stepFlush_events _ _ _)]
    rw [List.nil_append, List.nil_append]
    set st2 := (stepFlush (stepReason initState (extractReasoningAndAnswer s).1).1
      (extractReasoningAndAnswer s).1 (extractReasoningAndAnswer s).2).1 with hst2
    have hprevA : st2.previousAnswer = [] := by
      rw [hst2, (stepFlush_fields _ _ _).2, (stepReason_fields _ _).1]
      rfl
    by_cases hA : (extractReasoningAndAnswer s).2 = []
    · rw [hA]
      simp [stepAnswer, concatAnswerDeltas]
    · have hph : st2.reasoningPhase = false := by
        rw [hst2, stepFlush_phase, (stepReason_fields _ _).2]
        simp [List.isEmpty_iff, hA]
      have := stepAnswer_grows st2 (extractReasoningAndAnswer s).2 hph
        (by rw [hprevA]; exact List.nil_prefix) (extract_trimmed s).2
      rw [hprevA, List.nil_append] at this
      exact this.2

/-- Counterexample to claim C3: for the two-snapshot sequence with answers
"a" then "ab", streaming emits "a" and "b" (concatenation "ab"), while
aggregation joins both snapshots and extracts "a" from the first answer tag
pair of the join. -/
theorem c3_counterexample :
    concatAnswerDeltas (processChunk initState c3input).2 ≠ aggregateStream c3input := by
  have h1 : concatAnswerDeltas (processChunk initState c3input).2 = "ab".toList := by decide
  have hp : aggregatePieces c3input =
      [JsonVal.jstr ("<answer>a</answer>".toList), JsonVal.jstr ("<answer>ab</answer>".toList)] := rfl
  have h2 : aggregateStream c3input = "a".toList := by
    unfold aggregateStream
    rw [hp]
    have hf : List.flatten (List.map jsToString
        [JsonVal.jstr ("<answer>a</answer>".toList), JsonVal.jstr ("<answer>ab</answer>".toList)]) =
        "<answer>a</answer>".toList ++ "<answer>ab</answer>".toList := by
      simp [jsToString]
    rw [hf]
    decide
  rw [h1, h2]
  decide

/-- Witness for c3_single_event_agreement at a concrete payload. -/
theorem c3_witness :
    concatAnswerDeltas (processChunk initState [answerHiPayload]).2 =
      aggregateStream [answerHiPayload] :=
  c3_single_event_agreement answerHiPayload ("<answer>hi</answer>".toList) rfl (by decide)

/-- When the tracked reasoning already equals the current reasoning, the
transition block emits nothing (its residual-flush guard fails). -/
theorem stepFlush_silent (st : EngineState) (r a : List Char)
    (h : st.previousReasoning = r) : (stepFlush st r a).2 = [] := by
  unfold stepFlush
  split
  · dsimp only
    rw [if_neg]
    intro hcon
    exact hcon.2 (by rw [h])
  · rfl

/-- The last element with default of a non-empty list is a member. -/
theorem getLastD_mem {α : Type} : ∀ (l : List α) (d : α), l ≠ [] → l.getLastD d ∈ l := by
  intro l
  induction l with
  | nil =>
    intro d h
    exact absurd rfl h
  | cons x xs ih =>
    intro d h
    rw [List.getLastD_cons]
    cases hx : xs with
    | nil => simp
    | cons y ys =>
      have hm := ih x (by simp [hx])
      rw [hx] at hm
      exact List.mem_cons_of_mem x hm

/-- The second component of getLastD only depends on the default through its
second component. -/
theorem getLastD_snd_congr {α β : Type} (l : List (α × β)) (d1 d2 : α × β)
    (h : d1.2 = d2.2) : (l.getLastD d1).2 = (l.getLastD d2).2 := by
  cases l with
  | nil => exact h
  | cons x xs => rw [List.getLastD_cons, List.getLastD_cons]

/-- The first component of getLastD only depends on the default through its
first component. -/
theorem getLastD_fst_congr {α β : Type} (l : List (α × β)) (d1 d2 : α × β)
    (h : d1.1 = d2.1) : (l.getLastD d1).1 = (l.getLastD d2).1 := by
  cases l with
  | nil => exact h
  | cons x xs => rw [List.getLastD_cons, List.getLastD_cons]

/-- getLastD of a mapped non-empty list is the image of its last element. -/
theorem getLastD_map {α β : Type} (f : α → β) :
    ∀ (l : List α) (h : l ≠ []) (d : β),
    (l.map f).getLastD d = f (l.getLast h) := by
  intro l
  induction l with
  | nil =>
    intro h
    exact absurd rfl h
  | cons x xs ih =>
    intro h d
    cases xs with
    | nil => rfl
    | cons y ys =>
      rw [List.map_cons, List.getLastD_cons, ih (by simp) (f x)]
      congr 1

/-- One update in the answering phase: the reasoning branches are inert, and
an append-extended answer advances the tracked answer and emits exactly the
new suffix. -/
theorem engineStep_answering (st : EngineState) (r a : List Char)
    (hp : st.reasoningPhase = false) (hpre : st.previousAnswer <+: a)
    (hta : jsTrim a = a) :
    ((engineStep st r a).1).previousAnswer = a ∧
    ((engineStep st r a).1).previousReasoning = st.previousReasoning ∧
    ((engineStep st r a).1).reasoningPhase = false ∧
    concatReasoningDeltas (engineStep st r a).2 = [] ∧
    st.previousAnswer ++ concatAnswerDeltas (engineStep st r a).2 = a := by
  unfold engineStep
  dsimp only
  rw [stepReason_noop_false st r hp]
  dsimp only
  rw [stepFlush_noop_false st r a hp]
  dsimp only
  rw [List.nil_append, List.nil_append]
  refine ⟨(stepAnswer_grows st a hp hpre hta).1, (stepAnswer_fields st a).1, ?_, ?_,
    (stepAnswer_grows st a hp hpre hta).2⟩
  · rw [(stepAnswer_fields st a).2]
    exact hp
  · exact concatReasoningDeltas_eq_nil (stepAnswer_events st a)

/-- One update in the reasoning phase with no answer emitted yet: an
append-extended reasoning section advances the tracked reasoning and emits
exactly the new suffix; a non-empty answer then flips the phase, flushes
nothing further (the tracked reasoning is already current), and emits the
whole answer. -/
theorem engineStep_reasoning (st : EngineState) (r a : List Char)
    (hp : st.reasoningPhase = true) (hA : st.previousAnswer = [])
    (hpre : st.previousReasoning <+: r) (htr : jsTrim r = r) (hta : jsTrim a = a) :
    ((engineStep st r a).1).previousReasoning = r ∧
    ((engineStep st r a).1).previousAnswer = a ∧
    ((engineStep st r a).1).reasoningPhase = a.isEmpty ∧
    st.previousReasoning ++ concatReasoningDeltas (engineStep st r a).2 = r ∧
    concatAnswerDeltas (engineStep st r a).2 = a := by
  have h1 := stepReason_grows st r hp hpre htr
  have hf1 := stepReason_fields st r
  have hsil : (stepFlush (stepReason st r).1 r a).2 = [] :=
    stepFlush_silent _ r a h1.1
  have hf2 := stepFlush_fields (stepReason st r).1 r a
  have hph2 : ((stepFlush (stepReason st r).1 r a).1).reasoningPhase = a.isEmpty := by
    rw [stepFlush_phase, hf1.2, hp, Bool.true_and]
  have hpa2 : ((stepFlush (stepReason st r).1 r a).1).previousAnswer = [] := by
    rw [hf2.2, hf1.1, hA]
  have hpr2 : ((stepFlush (stepReason st r).1 r a).1).previousReasoning = r := by
    rw [hf2.1, h1.1]
  have hstate : (engineStep st r a).1 =
      (stepAnswer ((stepFlush (stepReason st r).1 r a).1) a).1 := rfl
  have hev : (engineStep st r a).2 =
      ((stepReason st r).2 ++ (stepFlush (stepReason st r).1 r a).2) ++
        (stepAnswer ((stepFlush (stepReason st r).1 r a).1) a).2 := rfl
  by_cases ha : a = []
  · subst ha
    have hnoop : stepAnswer ((stepFlush (stepReason st r).1 r []).1) ([] : List Char) =
        ((stepFlush (stepReason st r).1 r []).1, []) := by
      simp [stepAnswer]
    refine ⟨?_, ?_, ?_, ?_, ?_⟩
    · rw [hstate, hnoop]
      exact hpr2
    · rw [hstate, hnoop]
      exact hpa2
    · rw [hstate, hnoop]
      exact hph2
    · rw [hev, hnoop, hsil]
      rw [List.append_nil, List.append_nil]
      exact h1.2
    · rw [hev, hnoop, hsil]
      rw [List.append_nil, List.append_nil]
      exact concatAnswerDeltas_eq_nil (stepReason_events st r)
  · have hph2f : ((stepFlush (stepReason st r).1 r a).1).reasoningPhase = false := by
      rw [hph2]
      simp [List.isEmpty_iff, ha]
    have hg := stepAnswer_grows ((stepFlush (stepReason st r).1 r a).1) a hph2f
      (by rw [hpa2]; exact List.nil_prefix) hta
    have hfa := stepAnswer_fields ((stepFlush (stepReason st r).1 r a).1) a
    refine ⟨?_, ?_, ?_, ?_, ?_⟩
    · rw [hstate, hfa.1]
      exact hpr2
    · rw [hstate]
      exact hg.1
    · rw [hstate, hfa.2, hph2]
    · rw [hev, concatReasoningDeltas_append, concatReasoningDeltas_append, hsil]
      rw [concatReasoningDeltas_eq_nil (stepAnswer_events _ _)]
      show st.previousReasoning ++ (concatReasoningDeltas (stepReason st r).2 ++
        concatReasoningDeltas [] ++ []) = r
      rw [show concatReasoningDeltas ([] : List DeltaEvent) = [] from rfl]
      rw [List.append_nil, List.append_nil]
      exact h1.2
    · rw [hev, concatAnswerDeltas_append, concatAnswerDeltas_append, hsil]
      rw [concatAnswerDeltas_eq_nil (stepReason_events st r)]
      have := hg.2
      rw [hpa2, List.nil_append] at this
      rw [this]
      show ([] : List Char) ++ concatAnswerDeltas [] ++ a = a
      simp [concatAnswerDeltas]

/-- Run lemma for the answering phase: over answer sections growing by
append from the tracked value, the run emits no reasoning, leaves the tracked
reasoning alone, and the tracked answer plus emitted answer text equals the
final answer section. -/
theorem runSnapshots_answering (snaps : List (List Char)) :
    ∀ st : EngineState, st.reasoningPhase = false →
    jsTrim st.previousAnswer = st.previousAnswer →
    (∀ q ∈ (SectionsOf snaps).head?, st.previousAnswer <+: q.2) →
    List.Chain' (fun p q => p.2 <+: q.2) (SectionsOf snaps) →
    ((runSnapshots st snaps).1).previousReasoning = st.previousReasoning ∧
    concatReasoningDeltas (runSnapshots st snaps).2 = [] ∧
    st.previousAnswer ++ concatAnswerDeltas (runSnapshots st snaps).2 =
      ((SectionsOf snaps).getLastD (st.previousReasoning, st.previousAnswer)).2 := by
  induction snaps with
  | nil =>
    intro st hp htr hhead hchain
    refine ⟨rfl, rfl, ?_⟩
    simp [runSnapshots, concatAnswerDeltas, SectionsOf]
  | cons s rest ih =>
    intro st hp htr hhead hchain
    simp only [SectionsOf, List.map_cons] at hhead hchain ⊢
    have hpre : st.previousAnswer <+: (extractReasoningAndAnswer s).2 :=
      hhead (extractReasoningAndAnswer s) rfl
    obtain ⟨hh, hch⟩ := List.chain'_cons'.mp hchain
    have hes := engineStep_answering st (extractReasoningAndAnswer s).1
      (extractReasoningAndAnswer s).2 hp hpre (extract_trimmed s).2
    have hrun : runSnapshots st (s :: rest) =
        ((runSnapshots ((processContent st (JsonVal.jstr s)).1) rest).1,
         (processContent st (JsonVal.jstr s)).2 ++
           (runSnapshots ((processContent st (JsonVal.jstr s)).1) rest).2) := rfl
    rw [hrun]
    rw [processContent_jstr] at *
    set st1 := (engineStep st (extractReasoningAndAnswer s).1 (extractReasoningAndAnswer s).2).1 with hst1
    have hih := ih st1 (by rw [hes.2.2.1]) (by rw [hes.1]; exact (extract_trimmed s).2)
      (by
        intro q hq
        rw [hes.1]
        exact hh q hq)
      hch
    refine ⟨?_, ?_, ?_⟩
    · rw [hih.1, hes.2.1]
    · rw [concatReasoningDeltas_append, hes.2.2.2.1, hih.2.1]
      rfl
    · rw [concatAnswerDeltas_append, ← List.append_assoc, hes.2.2.2.2, List.getLastD_cons]
      rw [← hes.1]
      simp only [SectionsOf] at hih
      rw [hih.2.2]
      apply getLastD_snd_congr
      rw [hes.1]

/-- Run lemma from the reasoning phase: over section pairs growing by append
with the reasoning section frozen after the answer first appears, the tracked
reasoning plus emitted reasoning text equals the final reasoning section and
the emitted answer text equals the final answer section. -/
theorem runSnapshots_reasoning (snaps : List (List Char)) :
    ∀ st : EngineState, st.reasoningPhase = true → st.previousAnswer = [] →
    jsTrim st.previousReasoning = st.previousReasoning →
    (∀ q ∈ (SectionsOf snaps).head?, st.previousReasoning <+: q.1) →
    List.Chain' GrowsTo (SectionsOf snaps) →
    ReasoningFrozen (SectionsOf snaps) →
    st.previousReasoning ++ concatReasoningDeltas (runSnapshots st snaps).2 =
      ((SectionsOf snaps).getLastD (st.previousReasoning, [])).1 ∧
    concatAnswerDeltas (runSnapshots st snaps).2 =
      ((SectionsOf snaps).getLastD (st.previousReasoning, [])).2 := by
  induction snaps with
  | nil =>
    intro st hp hA htr hhead hchain hfrozen
    constructor
    · simp [runSnapshots, concatReasoningDeltas, SectionsOf]
    · simp [runSnapshots, concatAnswerDeltas, SectionsOf]
  | cons s rest ih =>
    intro st hp hA htr hhead hchain hfrozen
    simp only [SectionsOf, List.map_cons] at hhead hchain hfrozen ⊢
    have hpre : st.previousReasoning <+: (extractReasoningAndAnswer s).1 :=
      (hhead (extractReasoningAndAnswer s) rfl)
    obtain ⟨hh, hch⟩ := List.chain'_cons'.mp hchain
    obtain ⟨hfz, hfrest⟩ := hfrozen
    have hes := engineStep_reasoning st (extractReasoningAndAnswer s).1
      (extractReasoningAndAnswer s).2 hp hA hpre (extract_trimmed s).1 (extract_trimmed s).2
    have hrun : runSnapshots st (s :: rest) =
        ((runSnapshots ((processContent st (JsonVal.jstr s)).1) rest).1,
         (processContent st (JsonVal.jstr s)).2 ++
           (runSnapshots ((processContent st (JsonVal.jstr s)).1) rest).2) := rfl
    rw [hrun]
    rw [processContent_jstr] at *
    set st1 := (engineStep st (extractReasoningAndAnswer s).1 (extractReasoningAndAnswer s).2).1 with hst1
    by_cases ha : (extractReasoningAndAnswer s).2 = []
    · have hp1 : st1.reasoningPhase = true := by
        rw [hes.2.2.1, ha]
        rfl
      have hA1 : st1.previousAnswer = [] := by
        rw [hes.2.1, ha]
      have htr1 : jsTrim st1.previousReasoning = st1.previousReasoning := by
        rw [hes.1]
        exact (extract_trimmed s).1
      have hih := ih st1 hp1 hA1 htr1
        (by
          intro q hq
          rw [hes.1]
          exact (hh q hq).1)
        hch hfrest
      simp only [SectionsOf] at hih
      constructor
      · rw [concatReasoningDeltas_append, ← List.append_assoc, hes.2.2.2.1, List.getLastD_cons]
        rw [← hes.1, hih.1]
        apply getLastD_fst_congr
        exact hes.1
      · rw [concatAnswerDeltas_append, hes.2.2.2.2, ha, List.nil_append, List.getLastD_cons]
        rw [hih.2]
        apply getLastD_snd_congr
        rw [ha]
    · have hp1 : st1.reasoningPhase = false := by
        rw [hes.2.2.1]
        simp [List.isEmpty_iff, ha]
      have hA1 : st1.previousAnswer = (extractReasoningAndAnswer s).2 := hes.2.1
      have hAR := runSnapshots_answering rest st1 hp1
        (by rw [hA1]; exact (extract_trimmed s).2)
        (by
          intro q hq
          rw [hA1]
          exact (hh q hq).2)
        (List.Chain'.imp (fun p q hpq => hpq.2) hch)
      simp only [SectionsOf] at hAR
      constructor
      · rw [concatReasoningDeltas_append, ← List.append_assoc, hes.2.2.2.1, hAR.2.1,
          List.append_nil, List.getLastD_cons]
        by_cases hrest : List.map extractReasoningAndAnswer rest = []
        · rw [hrest]
          rfl
        · have hmem := getLastD_mem (List.map extractReasoningAndAnswer rest)
            (extractReasoningAndAnswer s) hrest
          exact (hfz ha _ hmem).symm
      · rw [concatAnswerDeltas_append, hes.2.2.2.2, List.getLastD_cons]
        rw [← hA1, hAR.2.2]
        apply getLastD_snd_congr
        rw [hA1]

/-- Claim C4 amended: for every non-empty snapshot sequence whose extracted
sections only grow by appending and whose reasoning section does not change
once the answer section is non-empty, the concatenation of all emitted deltas
for each section equals that section's final value; no character is emitted
twice and none is dropped. -/
theorem c4_append_growth (snaps : List (List Char)) (hne : snaps ≠ [])
    (hgrow : List.Chain' GrowsTo (SectionsOf snaps))
    (hfrozen : ReasoningFrozen (SectionsOf snaps)) :
    concatReasoningDeltas (runSnapshots initState snaps).2 =
      (extractReasoningAndAnswer (snaps.getLast hne)).1 ∧
    concatAnswerDeltas (runSnapshots initState snaps).2 =
      (extractReasoningAndAnswer (snaps.getLast hne)).2 := by
  have h := runSnapshots_reasoning snaps initState rfl rfl rfl
    (fun q _ => List.nil_prefix) hgrow hfrozen
  have hmap : (SectionsOf snaps).getLastD (initState.previousReasoning, []) =
      extractReasoningAndAnswer (snaps.getLast hne) := by
    unfold SectionsOf
    exact getLastD_map extractReasoningAndAnswer snaps hne _
  rw [hmap] at h
  constructor
  · have h1 := h.1
    rwa [show initState.previousReasoning = [] from rfl, List.nil_append] at h1
  · exact h.2

/-- Counterexample to claim C4: both sections grow by append ("a" to "ab",
"hi" to "hi"), but because the answer appears in the first snapshot the
engine is already in the answering phase when the reasoning grows, so the
reasoning suffix "b" is dropped and the concatenation "a" differs from the
final reasoning "ab". -/
theorem c4_counterexample :
    List.Chain' GrowsTo (SectionsOf [c4snap1, c4snap2]) ∧
    concatReasoningDeltas (runSnapshots initState [c4snap1, c4snap2]).2 ≠
      (extractReasoningAndAnswer
        (([c4snap1, c4snap2] : List (List Char)).getLast (by decide))).1 := by
  constructor
  · show List.Chain' GrowsTo [extractReasoningAndAnswer c4snap1, extractReasoningAndAnswer c4snap2]
    rw [List.chain'_cons]
    exact ⟨⟨⟨"b".toList, by decide⟩, ⟨[], by decide⟩⟩, List.chain'_singleton _⟩
  · decide

/-- Witness for c4_append_growth at a concrete single-snapshot sequence. -/
theorem c4_witness :
    concatReasoningDeltas (runSnapshots initState [c4snap1]).2 =
      (extractReasoningAndAnswer (([c4snap1] : List (List Char)).getLast (by decide))).1 ∧
    concatAnswerDeltas (runSnapshots initState [c4snap1]).2 =
      (extractReasoningAndAnswer (([c4snap1] : List (List Char)).getLast (by decide))).2 :=
  c4_append_growth [c4snap1] (by decide) (List.chain'_singleton _)
    ⟨fun _ q hq => absurd hq (List.not_mem_nil q), trivial⟩
